import Mathlib

/-!
Verification of the schema decomposition and reference-rewriting engine of
`src/commands/oas2json.ts` (openapi-transformer-toolkit).

The TypeScript source is shallowly embedded: JavaScript values flowing through
the pipeline are modelled by the inductive `Json` (which includes `undef` for
JavaScript `undefined`), property access / assignment / deletion are modelled
by `lookup` / `setField` / `delField` on insertion-ordered field lists, and
`JSON.stringify(value, null, 2)` is modelled by `stringifyJson`.  Fallible
steps (JavaScript statements that throw `TypeError` at runtime, e.g. property
assignment on a primitive in strict mode, or `Object.entries(undefined)`)
return `Except Unit`.
-/

set_option maxHeartbeats 1000000
set_option maxRecDepth 10000

namespace Oas2Json

/-- A JavaScript value as it appears in the pipeline.  `undef` models the
JavaScript `undefined` value (distinct from JSON `null`); numbers are
modelled as integers, which covers every number the claims exercise. -/
inductive Json where
  | null
  | undef
  | bool (b : Bool)
  | num (n : Int)
  | str (s : String)
  | arr (elems : List Json)
  | obj (fields : List (String × Json))
deriving Inhabited

namespace Json

/-- First value stored under key `k` in an object (JavaScript objects cannot
have duplicate keys, so field lists coming from the source have no
duplicates). -/
def lookup : Json → String → Option Json
  | .obj fields, k => (fields.find? (fun kv => kv.1 = k)).map (·.2)
  | _, _ => none

/-- Property read `v[k]` on a non-nullish value: a missing property reads as
`undefined` (also on primitives, whose wrappers have no such property). -/
def lookupD (v : Json) (k : String) : Json :=
  match v.lookup k with
  | some w => w
  | none => (.undef)

/-- Property read `v[k]` as JavaScript evaluates it: throws on `null` and
`undefined`, otherwise yields the property or `undefined`. -/
def jsGet (v : Json) (k : String) : Except Unit Json :=
  match v with
  | .null => .error ()
  | .undef => .error ()
  | _ => .ok (v.lookupD k)

/-- Property assignment `o[k] = w` on an object: overwrite in place if the key
exists, append otherwise (JavaScript property-order semantics). -/
def setField : Json → String → Json → Json
  | .obj fields, k, w => .obj (go fields k w)
  | v, _, _ => v
where
  go : List (String × Json) → String → Json → List (String × Json)
    | [], k, w => [(k, w)]
    | (k', v') :: rest, k, w =>
      if k' = k then (k, w) :: rest else (k', v') :: go rest k w

/-- Property deletion `delete o[k]` on an object. -/
def delField : Json → String → Json
  | .obj fields, k => .obj (fields.filter (fun kv => kv.1 ≠ k))
  | v, _ => v

/-- JavaScript truthiness. -/
def truthy : Json → Bool
  | .null => false
  | .undef => false
  | .bool b => b
  | .num n => n ≠ 0
  | .str s => s ≠ ""
  | .arr _ => true
  | .obj _ => true

def isUndef : Json → Bool
  | .undef => true
  | _ => false

mutual

/-- `String(v)`: JavaScript string coercion, used for computed property
keys. -/
def jsToString : Json → String
  | .null => "null"
  | .undef => "undefined"
  | .bool b => toString b
  | .num n => toString n
  | .str s => s
  | .arr xs => String.intercalate "," (jsToStringList xs)
  | .obj _ => "[object Object]"

def jsToStringList : List Json → List String
  | [] => []
  | x :: xs => jsToString x :: jsToStringList xs

end

/-- `Object.entries(v)`: throws on `null`/`undefined`; objects yield their
fields in insertion order, arrays yield index-keyed entries, strings yield
character entries, other primitives yield nothing. -/
def entriesOf : Json → Except Unit (List (String × Json))
  | .null => .error ()
  | .undef => .error ()
  | .obj fields => .ok fields
  | .arr xs => .ok (xs.enum.map (fun p => (toString p.1, p.2)))
  | .str s => .ok (s.toList.enum.map (fun p => (toString p.1, Json.str (String.mk [p.2]))))
  | _ => .ok []

/-- `'k' in v`: the JavaScript `in` operator — throws on primitives, checks
key presence on objects (`"parameters"` is never an array index, so arrays
answer `false` for the keys this pipeline asks about). -/
def hasKeyE (v : Json) (k : String) : Except Unit Bool :=
  match v with
  | .obj fields => .ok (fields.any (fun kv => kv.1 = k))
  | .arr _ => .ok false
  | _ => .error ()

end Json

/-- One character of JSON string-literal escaping, as `JSON.stringify`
performs it. -/
def escapeChar (c : Char) : String :=
  if c = '"' then "\\\""
  else if c = '\\' then "\\\\"
  else if c = '\x08' then "\\b"
  else if c = '\x0c' then "\\f"
  else if c = '\n' then "\\n"
  else if c = '\r' then "\\r"
  else if c = '\t' then "\\t"
  else if c.val < 32 then
    "\\u00" ++ String.mk [Nat.digitChar (c.val.toNat / 16), Nat.digitChar (c.val.toNat % 16)]
  else String.mk [c]

def quoteString (s : String) : String :=
  "\"" ++ String.join (s.toList.map escapeChar) ++ "\""

mutual

/-- `JSON.stringify(v, null, 2)` at nesting indent `indent`: `none` is an
`undefined` serialization result (dropped inside objects, rendered as `null`
inside arrays). -/
def stringifyAux : Json → String → Option String
  | .null, _ => some "null"
  | .undef, _ => none
  | .bool b, _ => some (toString b)
  | .num n, _ => some (toString n)
  | .str s, _ => some (quoteString s)
  | .arr xs, indent =>
    let inner := indent ++ "  "
    let items := stringifyList xs inner
    if items.isEmpty then some "[]"
    else some ("[\n" ++ String.intercalate ",\n" (items.map (fun it => inner ++ it.getD "null"))
          ++ "\n" ++ indent ++ "]")
  | .obj fields, indent =>
    let inner := indent ++ "  "
    let items := (stringifyFields fields inner).filterMap
      (fun kv => (kv.2).map (fun s => quoteString kv.1 ++ ": " ++ s))
    if items.isEmpty then some "\x7b\x7d"
    else some ("\x7b\n" ++ String.intercalate ",\n" (items.map (fun it => inner ++ it))
          ++ "\n" ++ indent ++ "\x7d")

def stringifyList : List Json → String → List (Option String)
  | [], _ => []
  | x :: xs, indent => stringifyAux x indent :: stringifyList xs indent

def stringifyFields : List (String × Json) → String → List (String × Option String)
  | [], _ => []
  | (k, v) :: rest, indent => (k, stringifyAux v indent) :: stringifyFields rest indent

end

/-- `JSON.stringify(v, null, 2)`. -/
def stringifyJson (v : Json) : Option String := stringifyAux v ""

/-- The top-level keys that survive `JSON.stringify` of an object: exactly the
fields whose value is not `undefined`. -/
def writtenKeys : Json → List String
  | .obj fields => (fields.filter (fun kv => !kv.2.isUndef)).map (·.1)
  | _ => []

/-! ## Name/filename resolution and schema adaptation -/
/-- The characters kept by `INVALID_URI_CHARS_REGEXP` (the regexp matches the
complement and every match is removed). -/
def isValidUriChar (c : Char) : Bool :=
  c.isAlphanum ||
    ['-', '.', '_', '~', ':', '/', '?', '#', '[', ']', '@', '!', '$', '&',
     '\'', '(', ')', '*', '+', ',', ';', '='].contains c

/-- `filename.replace(INVALID_URI_CHARS_REGEXP, '')`. -/
def sanitizeUri (s : String) : String := String.mk (s.toList.filter isValidUriChar)

/-- `pat` occurs as a contiguous substring of the second argument. -/
def containsSub (pat : List Char) : List Char → Bool
  | [] => pat.isEmpty
  | c :: rest => pat.isPrefixOf (c :: rest) || containsSub pat rest

/-- `generatedSchema.format?.includes('date')`: optional chaining makes an
absent, `undefined` or `null` `format` short-circuit to `undefined` (falsy);
a string `format` is a substring test (`String.prototype.includes`); an
array `format` is an element test (`Array.prototype.includes`, SameValueZero
against the string `'date'`); any other `format` value has no callable
`includes`, so the call throws a `TypeError`. -/
def formatIncludesDate (v : Json) : Except Unit Bool :=
  match v.lookup "format" with
  | none => .ok false
  | some .undef => .ok false
  | some .null => .ok false
  | some (.str s) => .ok (containsSub "date".toList s.toList)
  | some (.arr xs) => .ok (xs.any (fun x => match x with | .str t => t == "date" | _ => false))
  | some _ => .error ()

/-- `adaptSchema` from the source, with the in-place mutation modelled
functionally.  The `name` parameter is a `Json` because the call sites can
pass `undefined` (a synthetic parameter schema has no `name` field).
Property assignment on a primitive throws a `TypeError` in strict mode
(`.error`); on an array it creates non-index properties that
`JSON.stringify` ignores, so arrays pass through unchanged (an array has no
`format` property, so the date check reads `undefined` there).  The `format`
check runs after the mutations, which never touch the `format` key, and
propagates the `TypeError` a method call on a non-string non-array `format`
raises. -/
def adaptSchema (generatedSchema : Json) (name : Json) (filename : String) :
    Except Unit Json :=
  let sanitizedFilename := sanitizeUri filename
  match generatedSchema with
  | .obj _ =>
    let s1 := (generatedSchema.delField "$schema").setField "title" name
    let s2 := s1.setField "$id" (.str (sanitizedFilename ++ ".json"))
    match formatIncludesDate s2 with
    | .error e => .error e
    | .ok b => .ok (if b then s2.setField "tsType" (.str "Date") else s2)
  | .arr _ => .ok generatedSchema
  | _ => .error ()

/-- `v === '<s>'` for a string literal. -/
def Json.eqStrB (v : Json) (s : String) : Bool :=
  match v with
  | .str t => t = s
  | _ => false

/-- The parameter loop of `buildSchemaFromParameters`: accumulates the
`properties` assignments and the `required` pushes.  Destructuring a
`null`/`undefined` parameter throws.  A falsy `name` skips the parameter;
the raw `name` value is pushed onto `required` while the property key is its
string coercion. -/
def buildParamsAcc : List Json → List (String × Json) → List Json →
    Except Unit (List (String × Json) × List Json)
  | [], props, reqs => .ok (props, reqs)
  | p :: rest, props, reqs =>
    match p with
    | .null => .error ()
    | .undef => .error ()
    | _ =>
      let name := p.lookupD "name"
      if name.truthy then
        let props' := Json.setField.go props name.jsToString (.obj [("schema", p.lookupD "schema")])
        let reqs' := if (p.lookupD "required").truthy then reqs ++ [name] else reqs
        buildParamsAcc rest props' reqs'
      else buildParamsAcc rest props reqs

/-- `buildSchemaFromParameters` from the source. -/
def buildSchemaFromParameters (parameters : List Json) : Except Unit Json := do
  let (props, reqs) ← buildParamsAcc parameters [] []
  .ok (.obj [("type", .str "object"), ("properties", .obj props),
             ("required", .arr reqs), ("additionalProperties", .bool false)])

/-- Modelled from the spec: the external `filenamify` collaborator (§6
"accepts an arbitrary string and a replacement character for invalid
characters, returns a filesystem-safe string").  Modelled as replacing each
character that is invalid in a filename with the replacement `-`. -/
def filenamifyDash (s : String) : String :=
  String.mk (s.toList.map (fun c =>
    if ['<', '>', ':', '"', '/', '\\', '|', '?', '*'].contains c || c.val < 32
    then '-' else c))

/-- `_trimStart(·, '-')`: drop the leading run of `-` characters. -/
def trimStartDash (s : String) : String := String.mk (s.toList.dropWhile (fun c => c = '-'))

/-- Modelled from the spec: `formatFileName` lives in `utils/paths.js`,
which is not under `src/`.  §4.1 pins only a deterministic final formatting
pass, and the §8 example shows it preserving underscore-joined stems and
their `_query_parameters` / `_path_parameters` suffixes verbatim, so it is
modelled as the identity. -/
def formatFileName (s : String) : String := s

/-- `getFilename` composed on a string name. -/
def getFilenameS (s : String) : String := formatFileName (trimStartDash (filenamifyDash s))

/-- `getFilename` from the source, lifted to the JavaScript value the call
sites actually pass for `name`.  Modelled from the spec for non-string
names: §4.4 specifies "accessing a missing `name` yields no filename and
the write is not attempted", so a non-string name resolves to no
filename. -/
def getFilename : Json → Option String
  | .str s => some (getFilenameS s)
  | _ => none

/-! ## Reference rewriting (`COMPONENT_REF_REGEXP` and the rewrite loop) -/
/-- The alternatives of `COMPONENT_REF_REGEXP`. -/
def validKinds : List String :=
  ["callbacks", "examples", "headers", "links", "parameters",
   "requestBodies", "responses", "schemas", "securitySchemes"]

/-- The fixed head of `COMPONENT_REF_REGEXP`. -/
def keyHead : List Char := "#/components/".toList

/-- The kind alternative that matches at the current position (at most one
can: no kind is a prefix of another followed by `/`). -/
def tryKind (rest : List Char) : Option String :=
  validKinds.find? (fun k => (k.toList ++ ['/']).isPrefixOf rest)

/-- The trailing `[^"]+` part of one regexp attempt: the greedy nonempty
quote-free run after `#/components/<kind>/`. -/
def matchTail (k : String) (rest2 : List Char) : Option (List Char × List Char) :=
  if (rest2.takeWhile (fun c => c ≠ '"')).isEmpty then none
  else some (keyHead ++ k.toList ++ '/' :: rest2.takeWhile (fun c => c ≠ '"'),
             rest2.drop (rest2.takeWhile (fun c => c ≠ '"')).length)

/-- One attempt of `COMPONENT_REF_REGEXP` at the head of `cs`: the matched
text (head, kind, `/`, then the greedy nonempty run `[^"]+`) and the
remainder of the string. -/
def matchRefAt (cs : List Char) : Option (List Char × List Char) :=
  if keyHead.isPrefixOf cs then
    match tryKind (cs.drop keyHead.length) with
    | some k => matchTail k ((cs.drop keyHead.length).drop (k.toList.length + 1))
    | none => none
  else none

/-- The scanning loop of `String.match`, with explicit fuel so that the
recursion is structural (each step consumes at least one character, so fuel
equal to the length never runs out — see `findRefsAux_fuel`). -/
def findRefsAux : Nat → List Char → List (List Char)
  | 0, _ => []
  | _ + 1, [] => []
  | fuel + 1, c :: rest =>
    match matchRefAt (c :: rest) with
    | some (m, after) => m :: findRefsAux fuel after
    | none => findRefsAux fuel rest

/-- `schemaAsString.match(COMPONENT_REF_REGEXP)`: the successive leftmost
matches, each scan resuming right after the previous match. -/
def findRefs (cs : List Char) : List (List Char) := findRefsAux cs.length cs

/-- The splice `str.replace` degenerates to when the replacement template
contains no dollar character: replace the first occurrence of `pat` by
`repl` verbatim (the patterns fed to it are nonempty matches). -/
def replaceFirstL : List Char → List Char → List Char → List Char
  | [], _, _ => []
  | c :: rest, pat, repl =>
    if pat.isPrefixOf (c :: rest) then repl ++ (c :: rest).drop pat.length
    else c :: replaceFirstL rest pat repl

/-- `GetSubstitution` (ECMA-262) for a string-pattern `replace` call: in the
replacement template, a doubled dollar stands for one dollar, dollar
ampersand for the matched text `m`, dollar backquote for the part of the
subject before the match (`b`) and dollar quote for the part after it (`a`).
A string pattern has no capture groups, so every other dollar sequence
(digits, angle bracket, lone dollar) stays literal. -/
def getSubstitution : List Char → List Char → List Char → List Char → List Char
  | [], _, _, _ => []
  | [c], _, _, _ => [c]
  | c :: d :: rest, m, b, a =>
    if c = '$' then
      if d = '$' then '$' :: getSubstitution rest m b a
      else if d = '&' then m ++ getSubstitution rest m b a
      else if d = Char.ofNat 96 then b ++ getSubstitution rest m b a
      else if d = Char.ofNat 39 then a ++ getSubstitution rest m b a
      else '$' :: getSubstitution (d :: rest) m b a
    else c :: getSubstitution (d :: rest) m b a

/-- `str.replace(pat, repl)` with a string pattern and a string replacement:
replace the first occurrence of `pat`, feeding the replacement template
through `getSubstitution` — the source builds the template from
document-controlled text, so the dollar forms matter.  `before` accumulates
the part of the subject already scanned past. -/
def jsReplace (before : List Char) : List Char → List Char → List Char → List Char
  | [], _, _ => []
  | c :: rest, pat, repl =>
    if pat.isPrefixOf (c :: rest) then
      getSubstitution repl pat before ((c :: rest).drop pat.length)
        ++ (c :: rest).drop pat.length
    else c :: jsReplace (before ++ [c]) rest pat repl

/-- `ref.split('/').slice(-1)` interpolated into a template literal: the
last `/`-separated segment of the match. -/
def lastSegment (m : List Char) : List Char :=
  (m.reverse.takeWhile (fun c => c ≠ '/')).reverse

/-- The text substituted for a matched reference: `` `${refName}.json` ``. -/
def refReplacement (m : List Char) : List Char := lastSegment m ++ ".json".toList

/-- The rewrite loop of `processSchema`: collect all matches of the original
string, then replace the first occurrence of each in turn. -/
def rewriteRefs (s : List Char) : List Char :=
  (findRefs s).foldl (fun acc m => jsReplace [] acc m (refReplacement m)) s

def rewriteRefsStr (s : String) : String := String.mk (rewriteRefs s.toList)

/-! ## The extraction pipeline

Extraction functions return the list of files written (in write order)
paired with an error flag: `true` means a step threw, which aborts every
subsequent step but keeps the writes already performed (the synchronous
`fs.writeFileSync` calls preceding the throw). -/
/-- One file written by `saveSchema`: the subdirectory under the schemas
root, the `<filename>.json` leaf name, and the payload string. -/
structure Write where
  dir : String
  file : String
  content : String
deriving DecidableEq, Repr

/-- `str.split(sep)` for a single-character separator (the only form the
pipeline uses: `','` for the properties option and `'.'` for lodash paths);
the empty string splits to `[""]`, as in JavaScript. -/
def splitOnCharAux (sep : Char) : List Char → List Char → List (List Char)
  | [], acc => [acc.reverse]
  | c :: rest, acc =>
    if c = sep then acc.reverse :: splitOnCharAux sep rest []
    else splitOnCharAux sep rest (c :: acc)

def splitOnCharS (sep : Char) (s : String) : List String :=
  (splitOnCharAux sep s.toList []).map String.mk

def METHODS : List String :=
  ["get", "post", "put", "delete", "options", "head", "patch"]

def PARAMETERS_KEYWORD : String := "parameters"

def EXTRACTION_PARAMETERS_KEYWORDS : List String := ["query", "path"]

/-- `processParameterSchema` from the source: reads `schema.name` (which is
`undefined` for the synthetic schemas the pipeline builds), adapts, and
writes the serialized schema — with no reference rewriting. -/
def processParameterSchema (schema : Json) (definitionKeyword : String)
    (filename : String) : Except Unit Write := do
  let name ← schema.jsGet "name"
  let adapted ← adaptSchema schema name filename
  match stringifyJson adapted with
  | some s => .ok ⟨definitionKeyword, filename ++ ".json", s⟩
  | none => .error ()

/-- One iteration of the `Object.entries(schema).forEach` loop of
`processSchema`: `ok none` is the silent skip (no resolvable name,
modelled from the spec via `getFilename`), `ok (some w)` a performed
write, `error` a throw. -/
def processEntry (isArray : Bool) (definitionKeyword : String)
    (key : String) (value : Json) : Except Unit (Option Write) := do
  let name ← if isArray then value.jsGet "name" else pure (.str key)
  match getFilename name with
  | none => .ok none
  | some filename => do
    let adapted ← adaptSchema value name filename
    match stringifyJson adapted with
    | some s => .ok (some ⟨definitionKeyword, filename ++ ".json", rewriteRefsStr s⟩)
    | none => .error ()

def processEntries (isArray : Bool) (definitionKeyword : String) :
    List (String × Json) → List Write × Bool
  | [] => ([], false)
  | (key, value) :: rest =>
    match processEntry isArray definitionKeyword key value with
    | .error _ => ([], true)
    | .ok none => processEntries isArray definitionKeyword rest
    | .ok (some w) =>
      let (ws, e) := processEntries isArray definitionKeyword rest
      (w :: ws, e)

/-- `processSchema` from the source. -/
def processSchema (schema : Json) (definitionKeyword : String) (isArray : Bool) :
    List Write × Bool :=
  match schema.entriesOf with
  | .error _ => ([], true)
  | .ok es => processEntries isArray definitionKeyword es

/-- `_get(obj, path)` for the dotted paths this pipeline uses; lodash `get`
traverses safely, yielding `undefined` on missing segments. -/
def lodashGet (v : Json) (path : String) : Json :=
  (splitOnCharS '.' path).foldl (fun acc seg => acc.lookupD seg) v

/-- `Array.isArray`. -/
def isArrayJson : Json → Bool
  | .arr _ => true
  | _ => false

/-- `processComponents` from the source: a thrown error propagates out of
the `forEach`, aborting the remaining keywords. -/
def processComponents (componentsKeywords : List String) (generatedSchema : Json)
    (parsedOpenAPIContent : Json) : List Write × Bool :=
  match componentsKeywords with
  | [] => ([], false)
  | key :: rest =>
    let (ws, e) := processSchema (lodashGet generatedSchema key) key
        (isArrayJson (lodashGet parsedOpenAPIContent key))
    if e then (ws, true)
    else
      let (ws2, e2) := processComponents rest generatedSchema parsedOpenAPIContent
      (ws ++ ws2, e2)

/-- The `.reduce` partition of a `parameters` list: parameters with
`in: "path"` are pushed onto the accumulator's `query` bucket and
parameters with `in: "query"` onto its `path` bucket (the documented
inversion); reading `.in` off a nullish element throws. -/
def partitionParams : List Json → Except Unit (List Json × List Json)
  | [] => .ok ([], [])
  | p :: rest => do
    let _ ← p.jsGet "in"
    let (q, pa) ← partitionParams rest
    .ok ((if (p.lookupD "in").eqStrB "path" then p :: q else q),
         (if (p.lookupD "in").eqStrB "query" then p :: pa else pa))

/-- One iteration of the `Object.entries(schemas).forEach` bucket loop:
emit one synthetic parameter file for a non-empty bucket under the
`<baseFilename>_<key>_parameters` stem. -/
def runBucket (folder baseFilename : String) (key : String) (bucket : List Json) :
    List Write × Bool :=
  if EXTRACTION_PARAMETERS_KEYWORDS.contains key && !bucket.isEmpty then
    match buildSchemaFromParameters bucket with
    | .error _ => ([], true)
    | .ok itemSchema =>
      match processParameterSchema itemSchema folder
          (getFilenameS (baseFilename ++ "_" ++ key ++ "_" ++ PARAMETERS_KEYWORD)) with
      | .error _ => ([], true)
      | .ok w => ([w], false)
  else ([], false)

def pathJoin (a b : String) : String := a ++ "/" ++ b

/-- One iteration of the inner `Object.entries(endpointOptions).forEach`
loop of `processPathSchemas` (`&&` short-circuits, so the `in` operator
only runs on recognized methods; `.reduce` on a non-array throws). -/
def processOption (pathFolder baseFilename : String)
    (optionKey : String) (optionSchema : Json) : List Write × Bool :=
  match (if METHODS.contains optionKey
         then optionSchema.hasKeyE PARAMETERS_KEYWORD else .ok false) with
  | .error _ => ([], true)
  | .ok isValidMethod =>
    let isValidPathParameters := optionKey == PARAMETERS_KEYWORD
    if isValidMethod || isValidPathParameters then
      let folder := if isValidMethod then pathJoin pathFolder optionKey else pathFolder
      let currentSchema := if isValidMethod then optionSchema.lookupD PARAMETERS_KEYWORD
                           else optionSchema
      match currentSchema with
      | .arr params =>
        match partitionParams params with
        | .error _ => ([], true)
        | .ok (q, pa) =>
          let (w1, e1) := runBucket folder baseFilename "query" q
          if e1 then (w1, true)
          else
            let (w2, e2) := runBucket folder baseFilename "path" pa
            (w1 ++ w2, e2)
      | _ => ([], true)
    else ([], false)

def processOptions (pathFolder baseFilename : String) :
    List (String × Json) → List Write × Bool
  | [] => ([], false)
  | (k, v) :: rest =>
    let (ws, e) := processOption pathFolder baseFilename k v
    if e then (ws, true)
    else
      let (ws2, e2) := processOptions pathFolder baseFilename rest
      (ws ++ ws2, e2)

/-- `endpoint.replaceAll('/', '_')` applied after URI sanitization. -/
def underscorePath (s : String) : String :=
  String.mk (s.toList.map (fun c => if c = '/' then '_' else c))

def processEndpoint (endpoint : String) (endpointOptions : Json) : List Write × Bool :=
  let pathName := sanitizeUri endpoint
  match endpointOptions.entriesOf with
  | .error _ => ([], true)
  | .ok opts => processOptions pathName (underscorePath pathName) opts

def processPathEntries : List (String × Json) → List Write × Bool
  | [] => ([], false)
  | (endpoint, opts) :: rest =>
    let (ws, e) := processEndpoint endpoint opts
    if e then (ws, true)
    else
      let (ws2, e2) := processPathEntries rest
      (ws ++ ws2, e2)

/-- `processPathSchemas` from the source. -/
def processPathSchemas (generatedSchema : Json) : List Write × Bool :=
  match (lodashGet generatedSchema "paths").entriesOf with
  | .error _ => ([], true)
  | .ok entries => processPathEntries entries

/-! ## The orchestrator -/
inductive RunResult where
  | exited (code : Nat)
  | returned
deriving DecidableEq, Repr

/-- The observable outcome of one `runCommand` invocation: how the process
ended, the log events emitted, and the state of the output directory (the
files written into it, in write order, and whether it exists). -/
structure RunOutput where
  result : RunResult
  log : List String
  files : List Write
  outputDirExists : Bool
deriving DecidableEq, Repr

/-- The effective definition-keyword set: the comma-separated extras (if
any) and the always-present `components.schemas`, deduplicated keeping first
occurrences (`[...new Set([...])]`). -/
def componentsKeywordsOf (propertiesToExport : Option String) : List String :=
  ((match propertiesToExport with
    | some s => splitOnCharS ',' s
    | none => []) ++ ["components.schemas"]).eraseDups

def warnMessage : String := "Failed to convert non-object attribute, skipping"

def readErrorMessage : String := "Could not find the OpenAPI file"

def successMessage : String := "JSON schemas generated successfully from OpenAPI file"

/-- `runCommand` from the source.  External collaborators enter at their
boundaries: `input` is the parsed document (`none` when the file read
throws, YAML parsing being external), and — modelled from the spec — the
external converter `fromSchema` (its wrapper `utils/...-wrapper.js` is not
under `src/`; §6 says it "may raise on malformed input") is represented by
its outcome `conv`.  The function first removes and recreates the output
directory, so the run starts from an existing empty directory. -/
def runCommand (input : Option Json) (conv : Except Unit Json)
    (propertiesToExport : Option String) : RunOutput :=
  match input with
  | none => ⟨.exited 1, [readErrorMessage], [], true⟩
  | some parsedOpenAPIContent =>
    let componentsKeywords := componentsKeywordsOf propertiesToExport
    match conv with
    | .error _ => ⟨.returned, [warnMessage], [], true⟩
    | .ok generatedSchema =>
      let (ws1, e1) := processComponents componentsKeywords generatedSchema parsedOpenAPIContent
      if e1 then ⟨.returned, [warnMessage], ws1, true⟩
      else
        let (ws2, e2) := processPathSchemas generatedSchema
        if e2 then ⟨.returned, [warnMessage], ws1 ++ ws2, true⟩
        else ⟨.returned, [successMessage], ws1 ++ ws2, true⟩

/-! ## A chunk model of serialized schema documents

`COMPONENT_REF_REGEXP` and the rewrite loop act on the serialized document.
A serialized schema document is modelled as a concatenation of chunks:
`plain` text containing no `#` (so no reference can start inside it), `ref`
chunks that are maximal matches of the regexp (a valid kind and a nonempty
quote-free name), `other` chunks shaped like references whose kind is
outside the fixed set, and `hash` chunks — `#`-headed text whose head
diverges from `#/components/` (e.g. a `#/definitions/...` reference), so
the regexp cannot match at or inside it.  Well-formedness additionally
demands that the text following a `ref` chunk starts with the closing `"`
of the JSON string literal that held the reference — exactly the shape
`JSON.stringify` produces — so the greedy `[^"]+` stops at the chunk
boundary. -/
inductive Chunk where
  | plain (s : List Char)
  | ref (kind : String) (name : List Char)
  | other (kind name : List Char)
  | hash (s : List Char)
deriving DecidableEq, Repr

namespace Chunk

def text : Chunk → List Char
  | .plain s => s
  | .ref k n => keyHead ++ k.toList ++ '/' :: n
  | .other k n => keyHead ++ k ++ '/' :: n
  | .hash s => '#' :: s

/-- What the rewrite loop makes of one chunk: a fixed-set reference becomes
`<last segment>.json`, everything else is left unchanged. -/
def rewriteText : Chunk → List Char
  | .ref k n => refReplacement (keyHead ++ k.toList ++ '/' :: n)
  | c => c.text

def isRefChunk : Chunk → Bool
  | .ref _ _ => true
  | _ => false

/-- Chunk-local well-formedness (see the section comment).  For a `hash`
chunk the head `#` must not begin `#/components/` whatever text follows:
neither string is a prefix of the other. -/
def wfOne : Chunk → Bool
  | .plain s => s.all (fun c => c ≠ '#')
  | .ref k n => decide (k ∈ validKinds) && !n.isEmpty && n.all (fun c => c ≠ '"' && c ≠ '#')
  | .other k n =>
      k.all (fun c => c ≠ '/' && c ≠ '"' && c ≠ '#') &&
      decide (k ∉ validKinds.map String.toList) &&
      n.all (fun c => c ≠ '"' && c ≠ '#')
  | .hash s =>
      s.all (fun c => c ≠ '#') &&
      !keyHead.isPrefixOf ('#' :: s) && !('#' :: s).isPrefixOf keyHead

/-- The chunk's rewrite template is free of the dollar substitution forms:
its replacement `<refName>.json` is then spliced literally (`.json` itself
is dollar-free, so only the last segment of the name matters). -/
def dollarOk : Chunk → Bool
  | .ref _ n => (lastSegment n).all (fun c => c ≠ '$')
  | _ => true

end Chunk

/-- The reference matches contributed by the document, in order. -/
def refTexts (doc : List Chunk) : List (List Char) :=
  doc.filterMap (fun c => if c.isRefChunk then some c.text else none)

def flattenChunks (doc : List Chunk) : List Char := (doc.map Chunk.text).flatten

def startsWithQuoteB : List Chunk → Bool
  | [] => true
  | c :: _ => c.text.head? == some '"'

def wfChunks : List Chunk → Bool
  | [] => true
  | c :: rest =>
    Chunk.wfOne c && (!c.isRefChunk || startsWithQuoteB rest) && wfChunks rest

/-! ### No reference head occurs inside already-processed text -/
def kindHeadsL : List (List Char) := validKinds.map (fun k => keyHead ++ k.toList ++ ['/'])

/-- `SafeLeft s` says no fixed-set reference head `#/components/<kind>/`
occurs starting strictly inside `s`, whatever text follows `s`. -/
def SafeLeft (s : List Char) : Prop :=
  ∀ u v t : List Char, s = u ++ v → v ≠ [] →
    ∀ hdr ∈ kindHeadsL, ¬ hdr.isPrefixOf (v ++ t)

/-- Value-level test that a parameter is an object. -/
def Json.isObjB : Json → Bool
  | .obj _ => true
  | _ => false

/-- Value-level test that a parameter carries a nonempty string `name`. -/
def Json.nameOkB (p : Json) : Bool :=
  match p.lookupD "name" with
  | .str s => s ≠ ""
  | _ => false

/-- A payload serialized from a schema whose surviving top-level keys include
both `title` and `$id` (component-schema writes, which are also
reference-rewritten). -/
def GoodComponentWrite (w : Write) : Prop :=
  ∃ j s, stringifyJson j = some s ∧ w.content = rewriteRefsStr s ∧
    "title" ∈ writtenKeys j ∧ "$id" ∈ writtenKeys j

/-- A payload serialized from a schema whose surviving top-level keys include
`$id` but not `title` (synthetic parameter-schema writes). -/
def GoodParamWrite (w : Write) : Prop :=
  ∃ j s, stringifyJson j = some s ∧ w.content = s ∧
    "$id" ∈ writtenKeys j ∧ "title" ∉ writtenKeys j

/-! ## Theorems -/

theorem matchRefAt_length {cs m after : List Char}
    (h : matchRefAt cs = some (m, after)) : after.length < cs.length := by
  unfold matchRefAt at h
  split at h
  case isFalse => simp at h
  case isTrue hpre =>
    have hle : keyHead.length ≤ cs.length :=
      ((List.isPrefixOf_iff_prefix).mp hpre).length_le
    have hkh : keyHead.length = 13 := by decide
    split at h
    case h_2 => simp at h
    case h_1 k hk =>
      unfold matchTail at h
      split at h
      case isTrue => simp at h
      case isFalse hne =>
        simp only [Option.some.injEq, Prod.mk.injEq] at h
        obtain ⟨-, hafter⟩ := h
        subst hafter
        simp only [List.length_drop]
        omega

theorem findRefsAux_fuel (f1 : Nat) : ∀ (f2 : Nat) (cs : List Char),
    cs.length ≤ f1 → cs.length ≤ f2 → findRefsAux f1 cs = findRefsAux f2 cs := by
  induction f1 with
  | zero =>
    intro f2 cs h1 _
    have hnil : cs = [] := List.length_eq_zero.mp (Nat.le_zero.mp h1)
    subst hnil
    cases f2 <;> rfl
  | succ g1 ih =>
    intro f2 cs h1 h2
    cases cs with
    | nil => cases f2 <;> rfl
    | cons c rest =>
      cases f2 with
      | zero => simp at h2
      | succ g2 =>
        simp only [findRefsAux]
        cases hm : matchRefAt (c :: rest) with
        | some p =>
          obtain ⟨m, after⟩ := p
          have hlen := matchRefAt_length hm
          simp only [List.length_cons] at h1 h2 hlen
          dsimp only
          rw [ih g2 after (by omega) (by omega)]
        | none =>
          simp only [List.length_cons] at h1 h2
          dsimp only
          rw [ih g2 rest (by omega) (by omega)]

/-! ### Facts about the kind alternatives -/
theorem validKinds_no_slash : ∀ k ∈ validKinds, '/' ∉ k.toList := by decide

theorem keyHead_cons : keyHead = '#' :: "/components/".toList := by decide

/-- Two slash-free segments followed by `/` can only prefix-match when they
are equal: the first `/` pins the segment boundary. -/
theorem prefix_slash_eq {a b r : List Char} (ha : '/' ∉ a) (hb : '/' ∉ b)
    (h : (a ++ ['/']) <+: (b ++ '/' :: r)) : a = b := by
  induction a generalizing b with
  | nil =>
    cases b with
    | nil => rfl
    | cons y b' =>
      obtain ⟨t, ht⟩ := h
      simp only [List.nil_append, List.cons_append, List.cons.injEq] at ht
      exact absurd (ht.1.symm ▸ List.mem_cons_self y b') hb
  | cons x a' ih =>
    cases b with
    | nil =>
      obtain ⟨t, ht⟩ := h
      simp only [List.cons_append, List.nil_append, List.cons.injEq] at ht
      exact absurd (ht.1 ▸ List.mem_cons_self x a') ha
    | cons y b' =>
      obtain ⟨t, ht⟩ := h
      simp only [List.cons_append, List.cons.injEq] at ht
      obtain ⟨rfl, ht'⟩ := ht
      have ha' : '/' ∉ a' := fun hm => ha (List.mem_cons_of_mem _ hm)
      have hb' : '/' ∉ b' := fun hm => hb (List.mem_cons_of_mem _ hm)
      rw [ih ha' hb' ⟨t, ht'⟩]

theorem find?_eq_of_unique {α} (p : α → Bool) (l : List α) (k : α)
    (hk : k ∈ l) (hpk : p k = true) (huniq : ∀ x ∈ l, p x = true → x = k) :
    l.find? p = some k := by
  induction l with
  | nil => cases hk
  | cons y l' ih =>
    by_cases hy : p y = true
    · have : y = k := huniq y (List.mem_cons_self _ _) hy
      subst this
      simp [List.find?_cons_of_pos _ hy]
    · rw [List.find?_cons_of_neg _ (by simpa using hy)]
      have hyk : y ≠ k := fun h => hy (h ▸ hpk)
      cases hk with
      | head => exact absurd rfl hyk
      | tail _ hk' => exact ih hk' (fun x hx hpx => huniq x (List.mem_cons_of_mem _ hx) hpx)

theorem tryKind_at_kind {k : String} (hk : k ∈ validKinds) (r : List Char) :
    tryKind (k.toList ++ '/' :: r) = some k := by
  unfold tryKind
  apply find?_eq_of_unique _ _ _ hk
  · rw [List.isPrefixOf_iff_prefix, List.append_cons k.toList '/' r]
    exact List.prefix_append _ _
  · intro k' hk' hp
    rw [List.isPrefixOf_iff_prefix] at hp
    have := prefix_slash_eq (validKinds_no_slash k' hk') (validKinds_no_slash k hk) hp
    exact String.ext (by simpa [String.toList] using this)

theorem tryKind_not_kind {k : List Char} (hsl : ∀ c ∈ k, c ≠ '/')
    (hkv : k ∉ validKinds.map String.toList) (r : List Char) :
    tryKind (k ++ '/' :: r) = none := by
  unfold tryKind
  rw [List.find?_eq_none]
  intro k₀ hk₀ hp
  rw [List.isPrefixOf_iff_prefix] at hp
  have := prefix_slash_eq (validKinds_no_slash k₀ hk₀) (fun hm => hsl _ hm rfl) hp
  exact hkv (this ▸ List.mem_map_of_mem String.toList hk₀)

/-! ### The matcher on chunk shapes -/
theorem takeWhile_append_stop {p : Char → Bool} {n : List Char}
    (hn : ∀ c ∈ n, p c = true) {t : List Char}
    (ht : t = [] ∨ ∃ c t', t = c :: t' ∧ p c = false) :
    (n ++ t).takeWhile p = n := by
  induction n with
  | nil =>
    rcases ht with rfl | ⟨c, t', rfl, hc⟩
    · rfl
    · simpa using hc
  | cons x n' ih =>
    rw [List.cons_append, List.takeWhile_cons_of_pos (hn x (List.mem_cons_self _ _))]
    rw [ih (fun c hc => hn c (List.mem_cons_of_mem _ hc))]

theorem matchRefAt_ref {k : String} (hk : k ∈ validKinds) {n : List Char}
    (hne : n ≠ []) (hnq : ∀ c ∈ n, c ≠ '"') {t : List Char}
    (ht : t = [] ∨ t.head? = some '"') :
    matchRefAt (keyHead ++ (k.toList ++ '/' :: (n ++ t))) =
      some (keyHead ++ k.toList ++ '/' :: n, t) := by
  unfold matchRefAt
  rw [if_pos (by rw [List.isPrefixOf_iff_prefix]; exact List.prefix_append _ _)]
  rw [List.drop_left keyHead _, tryKind_at_kind hk]
  show matchTail k ((k.toList ++ '/' :: (n ++ t)).drop (k.toList.length + 1)) = _
  have hdrop : (k.toList ++ '/' :: (n ++ t)).drop (k.toList.length + 1) = n ++ t := by
    have hassoc : k.toList ++ '/' :: (n ++ t) = (k.toList ++ ['/']) ++ (n ++ t) := by
      simp
    rw [hassoc]
    have hlen : (k.toList ++ ['/']).length = k.toList.length + 1 := by
      rw [List.length_append]; rfl
    exact List.drop_left' hlen
  rw [hdrop]
  unfold matchTail
  have htw : (n ++ t).takeWhile (fun c => c ≠ '"') = n := by
    apply takeWhile_append_stop (fun c hc => by simpa using hnq c hc)
    rcases ht with rfl | hh
    · exact Or.inl rfl
    · cases t with
      | nil => exact Or.inl rfl
      | cons c t' =>
        refine Or.inr ⟨c, t', rfl, ?_⟩
        simp only [List.head?_cons, Option.some.injEq] at hh
        simp [hh]
  rw [htw, if_neg (by simpa using hne)]
  rw [List.drop_left n t]

theorem matchRefAt_ne_hash {c : Char} (hc : c ≠ '#') (rest : List Char) :
    matchRefAt (c :: rest) = none := by
  unfold matchRefAt
  rw [if_neg]
  intro h
  rw [List.isPrefixOf_iff_prefix] at h
  obtain ⟨t, ht⟩ := h
  rw [keyHead_cons] at ht
  simp only [List.cons_append, List.cons.injEq] at ht
  exact hc ht.1.symm

theorem matchRefAt_other {k : List Char} (hsl : ∀ c ∈ k, c ≠ '/')
    (hkv : k ∉ validKinds.map String.toList) (r : List Char) :
    matchRefAt (keyHead ++ (k ++ '/' :: r)) = none := by
  unfold matchRefAt
  rw [if_pos (by rw [List.isPrefixOf_iff_prefix]; exact List.prefix_append _ _)]
  rw [List.drop_left keyHead _, tryKind_not_kind hsl hkv]

/-! ### Unfolding `findRefs` -/
theorem matchRefAt_nil : matchRefAt [] = none := by decide

theorem findRefs_nil : findRefs [] = [] := rfl

theorem findRefs_eq_cons {cs m after : List Char}
    (h : matchRefAt cs = some (m, after)) :
    findRefs cs = m :: findRefs after := by
  cases cs with
  | nil => rw [matchRefAt_nil] at h; cases h
  | cons c rest =>
    have hlen := matchRefAt_length h
    show findRefsAux (c :: rest).length (c :: rest) = _
    simp only [List.length_cons, findRefsAux, h]
    rw [findRefsAux_fuel rest.length after.length after
      (by simp only [List.length_cons] at hlen; omega) (Nat.le_refl _)]
    rfl

theorem findRefs_cons_of_none {c : Char} {rest : List Char}
    (h : matchRefAt (c :: rest) = none) : findRefs (c :: rest) = findRefs rest := by
  show findRefsAux (c :: rest).length (c :: rest) = _
  simp only [List.length_cons, findRefsAux, h]
  rfl

theorem findRefs_hashfree_append {s : List Char} (hs : ∀ c ∈ s, c ≠ '#')
    (t : List Char) : findRefs (s ++ t) = findRefs t := by
  induction s with
  | nil => simp
  | cons c s' ih =>
    rw [List.cons_append,
      findRefs_cons_of_none (matchRefAt_ne_hash (hs c (List.mem_cons_self _ _)) _)]
    exact ih (fun c hc => hs c (List.mem_cons_of_mem _ hc))

/-! ### `findRefs` on a well-formed chunk document -/
theorem wfChunks_cons {c : Chunk} {rest : List Chunk} (h : wfChunks (c :: rest) = true) :
    Chunk.wfOne c = true ∧ (c.isRefChunk = true → startsWithQuoteB rest = true) ∧
      wfChunks rest = true := by
  simp only [wfChunks, Bool.and_eq_true, Bool.or_eq_true, Bool.not_eq_true'] at h
  refine ⟨h.1.1, fun hr => ?_, h.2⟩
  rcases h.1.2 with h' | h'
  · rw [hr] at h'; cases h'
  · exact h'

theorem flattenChunks_cons (c : Chunk) (rest : List Chunk) :
    flattenChunks (c :: rest) = c.text ++ flattenChunks rest := by
  simp [flattenChunks]

theorem refTexts_cons_plain (s : List Char) (rest : List Chunk) :
    refTexts (.plain s :: rest) = refTexts rest := by
  simp [refTexts, Chunk.isRefChunk]

theorem refTexts_cons_other (k n : List Char) (rest : List Chunk) :
    refTexts (.other k n :: rest) = refTexts rest := by
  simp [refTexts, Chunk.isRefChunk]

theorem refTexts_cons_ref (k : String) (n : List Char) (rest : List Chunk) :
    refTexts (.ref k n :: rest) = (Chunk.ref k n).text :: refTexts rest := by
  simp [refTexts, Chunk.isRefChunk]

theorem refTexts_cons_hash (s : List Char) (rest : List Chunk) :
    refTexts (.hash s :: rest) = refTexts rest := by
  simp [refTexts, Chunk.isRefChunk]

theorem flatten_head_quote {rest : List Chunk} (h : startsWithQuoteB rest = true) :
    flattenChunks rest = [] ∨ (flattenChunks rest).head? = some '"' := by
  cases rest with
  | nil => exact Or.inl rfl
  | cons c rest' =>
    right
    simp only [startsWithQuoteB, beq_iff_eq] at h
    rw [flattenChunks_cons]
    cases htext : c.text with
    | nil => rw [htext] at h; cases h
    | cons x xs =>
      rw [htext] at h
      simp only [List.head?_cons, Option.some.injEq] at h
      simp [h]

theorem slash_components_hashfree : ∀ c ∈ "/components/".toList, c ≠ '#' := by decide

theorem findRefs_flatten {doc : List Chunk} (h : wfChunks doc = true) :
    findRefs (flattenChunks doc) = refTexts doc := by
  induction doc with
  | nil => simpa [flattenChunks, refTexts] using findRefs_nil
  | cons c rest ih =>
    obtain ⟨hc, hq, hrest⟩ := wfChunks_cons h
    rw [flattenChunks_cons]
    cases c with
    | plain s =>
      rw [refTexts_cons_plain]
      simp only [Chunk.text]
      have hs : ∀ x ∈ s, x ≠ '#' := by
        simpa [Chunk.wfOne, List.all_eq_true] using hc
      rw [findRefs_hashfree_append hs, ih hrest]
    | ref k n =>
      rw [refTexts_cons_ref]
      simp only [Chunk.wfOne, Bool.and_eq_true, List.all_eq_true,
        decide_eq_true_eq, Bool.not_eq_true'] at hc
      obtain ⟨⟨hkmem, hnemp⟩, hnchars⟩ := hc
      have hne : n ≠ [] := by
        intro hcon; rw [hcon] at hnemp; simp at hnemp
      have hnq : ∀ x ∈ n, x ≠ '"' := fun x hx => (hnchars x hx).1
      have hshape : (Chunk.ref k n).text ++ flattenChunks rest
          = keyHead ++ (k.toList ++ '/' :: (n ++ flattenChunks rest)) := by
        simp [Chunk.text]
      rw [hshape]
      have hmatch := matchRefAt_ref hkmem hne hnq
        (flatten_head_quote (hq rfl))
      rw [findRefs_eq_cons hmatch, ih hrest]
      rfl
    | other k n =>
      rw [refTexts_cons_other]
      simp only [Chunk.wfOne, Bool.and_eq_true, List.all_eq_true,
        decide_eq_true_eq, Bool.not_eq_true'] at hc
      obtain ⟨⟨hkchars, hkv⟩, hnchars⟩ := hc
      have hsl : ∀ x ∈ k, x ≠ '/' := fun x hx => (hkchars x hx).1.1
      have hkh : ∀ x ∈ k, x ≠ '#' := fun x hx => (hkchars x hx).2
      have hnh : ∀ x ∈ n, x ≠ '#' := fun x hx => (hnchars x hx).2
      have hshape : (Chunk.other k n).text ++ flattenChunks rest
          = keyHead ++ (k ++ '/' :: (n ++ flattenChunks rest)) := by
        simp [Chunk.text]
      rw [hshape]
      have hnone := matchRefAt_other hsl (by simpa using hkv) (n ++ flattenChunks rest)
      have hcons : keyHead ++ (k ++ '/' :: (n ++ flattenChunks rest))
          = '#' :: ("/components/".toList ++ (k ++ '/' :: (n ++ flattenChunks rest))) := by
        rw [keyHead_cons]; rfl
      rw [hcons] at hnone ⊢
      rw [findRefs_cons_of_none hnone]
      have hbody : "/components/".toList ++ (k ++ '/' :: (n ++ flattenChunks rest))
          = ("/components/".toList ++ (k ++ '/' :: n)) ++ flattenChunks rest := by
        simp
      rw [hbody]
      have hhf : ∀ x ∈ "/components/".toList ++ (k ++ '/' :: n), x ≠ '#' := by
        intro x hx
        rcases List.mem_append.mp hx with hx | hx
        · exact slash_components_hashfree x hx
        · rcases List.mem_append.mp hx with hx | hx
          · exact hkh x hx
          · cases hx with
            | head => decide
            | tail _ hx => exact hnh x hx
      rw [findRefs_hashfree_append hhf, ih hrest]
    | hash s =>
      rw [refTexts_cons_hash]
      simp only [Chunk.wfOne, Bool.and_eq_true, List.all_eq_true, decide_eq_true_eq,
        Bool.not_eq_true'] at hc
      obtain ⟨⟨hsf, hnp1⟩, hnp2⟩ := hc
      have hsf' : ∀ x ∈ s, x ≠ '#' := fun x hx => by simpa using hsf x hx
      have hshape : (Chunk.hash s).text ++ flattenChunks rest
          = '#' :: (s ++ flattenChunks rest) := by
        simp [Chunk.text]
      rw [hshape]
      have hnone : matchRefAt ('#' :: (s ++ flattenChunks rest)) = none := by
        unfold matchRefAt
        rw [if_neg]
        intro hp
        rw [List.isPrefixOf_iff_prefix] at hp
        have hp' : keyHead <+: ('#' :: s) ++ flattenChunks rest := by
          simpa using hp
        rcases List.prefix_or_prefix_of_prefix hp'
            (List.prefix_append ('#' :: s) (flattenChunks rest)) with h' | h'
        · have hb := (List.isPrefixOf_iff_prefix).mpr h'
          rw [hnp1] at hb
          exact Bool.noConfusion hb
        · have hb := (List.isPrefixOf_iff_prefix).mpr h'
          rw [hnp2] at hb
          exact Bool.noConfusion hb
      rw [findRefs_cons_of_none hnone, findRefs_hashfree_append hsf', ih hrest]

theorem safeLeft_nil : SafeLeft [] := by
  intro u v t hsplit hv hdr _ _
  rcases List.append_eq_nil.mp hsplit.symm with ⟨-, rfl⟩
  exact hv rfl

theorem kindHeadsL_heads : ∀ hdr ∈ kindHeadsL, hdr.head? = some '#' := by decide

theorem safeLeft_hashfree {s : List Char} (hs : ∀ c ∈ s, c ≠ '#') : SafeLeft s := by
  intro u v t hsplit hv hdr hmem hpre
  cases v with
  | nil => exact hv rfl
  | cons x v' =>
    have hx : x ∈ s := hsplit ▸ List.mem_append_right u (List.mem_cons_self _ _)
    have hh := kindHeadsL_heads hdr hmem
    rw [List.isPrefixOf_iff_prefix] at hpre
    obtain ⟨w, hw⟩ := hpre
    cases hdr with
    | nil => cases hh
    | cons h0 hdr' =>
      simp only [List.head?_cons, Option.some.injEq] at hh
      simp only [List.cons_append, List.cons.injEq] at hw
      exact hs x hx (by rw [← hw.1, hh])

theorem SafeLeft.append {s₁ s₂ : List Char} (h₁ : SafeLeft s₁) (h₂ : SafeLeft s₂) :
    SafeLeft (s₁ ++ s₂) := by
  intro u v t hsplit hv hdr hmem hpre
  rcases List.append_eq_append_iff.mp hsplit.symm with ⟨w, hs1, hv'⟩ | ⟨w, hu, hs2⟩
  · cases w with
    | nil =>
      simp only [List.nil_append] at hv'
      exact h₂ [] s₂ t rfl (hv' ▸ hv) hdr hmem (hv' ▸ hpre)
    | cons x w' =>
      refine h₁ u (x :: w') (s₂ ++ t) hs1 (by simp) hdr hmem ?_
      have heq : (x :: w') ++ (s₂ ++ t) = v ++ t := by
        rw [hv']; simp
      rw [heq]
      exact hpre
  · exact h₂ w v t hs2 hv hdr hmem hpre

theorem safeLeft_cons_of {c : Char} {body : List Char}
    (h0 : ∀ t, ∀ hdr ∈ kindHeadsL, ¬ hdr.isPrefixOf (c :: body ++ t))
    (hbody : ∀ x ∈ body, x ≠ '#') : SafeLeft (c :: body) := by
  intro u v t hsplit hv hdr hmem hpre
  cases u with
  | nil =>
    simp only [List.nil_append] at hsplit
    exact h0 t hdr hmem (hsplit ▸ hpre)
  | cons c₀ u' =>
    simp only [List.cons_append, List.cons.injEq] at hsplit
    cases v with
    | nil => exact hv rfl
    | cons x v' =>
      have hx : x ∈ body := by
        rw [hsplit.2]
        exact List.mem_append_right u' (List.mem_cons_self _ _)
      have hh := kindHeadsL_heads hdr hmem
      rw [List.isPrefixOf_iff_prefix] at hpre
      obtain ⟨w, hw⟩ := hpre
      cases hdr with
      | nil => cases hh
      | cons h0' hdr' =>
        simp only [List.head?_cons, Option.some.injEq] at hh
        simp only [List.cons_append, List.cons.injEq] at hw
        exact hbody x hx (by rw [← hw.1, hh])

theorem safeLeft_other {k n : List Char} (hsl : ∀ c ∈ k, c ≠ '/')
    (hkv : k ∉ validKinds.map String.toList)
    (hkh : ∀ c ∈ k, c ≠ '#') (hnh : ∀ c ∈ n, c ≠ '#') :
    SafeLeft (keyHead ++ k ++ '/' :: n) := by
  have hshape : keyHead ++ k ++ '/' :: n
      = '#' :: ("/components/".toList ++ (k ++ '/' :: n)) := by
    rw [keyHead_cons]; simp
  rw [hshape]
  apply safeLeft_cons_of
  · intro t hdr hmem hpre
    obtain ⟨k₀, hk₀, rfl⟩ := List.mem_map.mp hmem
    rw [List.isPrefixOf_iff_prefix] at hpre
    have hres : keyHead ++ (k₀.toList ++ ['/']) <+:
        keyHead ++ (k ++ '/' :: (n ++ t)) := by
      have e1 : keyHead ++ k₀.toList ++ ['/'] = keyHead ++ (k₀.toList ++ ['/']) := by simp
      have e2 : '#' :: ("/components/".toList ++ (k ++ '/' :: n)) ++ t
          = keyHead ++ (k ++ '/' :: (n ++ t)) := by
        rw [keyHead_cons]; simp
      rw [e1] at hpre
      rw [e2] at hpre
      exact hpre
    rw [List.prefix_append_right_inj] at hres
    have := prefix_slash_eq (validKinds_no_slash k₀ hk₀) (fun hm => hsl _ hm rfl) hres
    exact hkv (this ▸ List.mem_map_of_mem String.toList hk₀)
  · intro x hx
    rcases List.mem_append.mp hx with hx | hx
    · exact slash_components_hashfree x hx
    · rcases List.mem_append.mp hx with hx | hx
      · exact hkh x hx
      · cases hx with
        | head => decide
        | tail _ hx => exact hnh x hx

/-! ### The replacement loop on a well-formed chunk document -/
theorem takeWhile_append_break {p : Char → Bool} {y : Char} (hy : p y = false)
    (xs ys : List Char) : (xs ++ y :: ys).takeWhile p = xs.takeWhile p := by
  induction xs with
  | nil => simp [List.takeWhile_cons, hy]
  | cons x xs' ih =>
    by_cases hx : p x
    · rw [List.cons_append, List.takeWhile_cons_of_pos hx, List.takeWhile_cons_of_pos hx, ih]
    · rw [List.cons_append, List.takeWhile_cons_of_neg hx, List.takeWhile_cons_of_neg hx]

theorem lastSegment_append_slash (a n : List Char) :
    lastSegment (a ++ '/' :: n) = lastSegment n := by
  unfold lastSegment
  congr 1
  rw [List.reverse_append, List.reverse_cons, List.append_assoc]
  rw [show ['/'] ++ a.reverse = '/' :: a.reverse from rfl]
  exact takeWhile_append_break (by decide) _ _

theorem mem_of_mem_lastSegment {x : Char} {m : List Char} (h : x ∈ lastSegment m) :
    x ∈ m := by
  unfold lastSegment at h
  rw [List.mem_reverse] at h
  have := (List.takeWhile_sublist _).subset h
  exact List.mem_reverse.mp this

theorem refReplacement_hashfree {k : String} {n : List Char} (hn : ∀ c ∈ n, c ≠ '#') :
    ∀ c ∈ refReplacement (keyHead ++ k.toList ++ '/' :: n), c ≠ '#' := by
  intro c hc
  unfold refReplacement at hc
  rcases List.mem_append.mp hc with h | h
  · have hlast : lastSegment (keyHead ++ k.toList ++ '/' :: n) = lastSegment n := by
      have e : keyHead ++ k.toList ++ '/' :: n = (keyHead ++ k.toList) ++ '/' :: n := by
        simp
      rw [e, lastSegment_append_slash]
    rw [hlast] at h
    exact hn c (mem_of_mem_lastSegment h)
  · have hc5 : c ∈ ['.', 'j', 's', 'o', 'n'] := h
    fin_cases hc5 <;> decide

theorem safeLeft_rewriteText {c : Chunk} (hc : Chunk.wfOne c = true) :
    SafeLeft c.rewriteText := by
  cases c with
  | plain s =>
    apply safeLeft_hashfree
    simpa [Chunk.rewriteText, Chunk.text, Chunk.wfOne, List.all_eq_true] using hc
  | ref k n =>
    apply safeLeft_hashfree
    simp only [Chunk.wfOne, Bool.and_eq_true, List.all_eq_true, decide_eq_true_eq,
      Bool.not_eq_true'] at hc
    exact refReplacement_hashfree (fun x hx => (hc.2 x hx).2)
  | other k n =>
    simp only [Chunk.wfOne, Bool.and_eq_true, List.all_eq_true, decide_eq_true_eq,
      Bool.not_eq_true'] at hc
    obtain ⟨⟨hkchars, hkv⟩, hnchars⟩ := hc
    show SafeLeft (keyHead ++ k ++ '/' :: n)
    exact safeLeft_other (fun x hx => (hkchars x hx).1.1) (by simpa using hkv)
      (fun x hx => (hkchars x hx).2) (fun x hx => (hnchars x hx).2)
  | hash s =>
    simp only [Chunk.wfOne, Bool.and_eq_true, List.all_eq_true, decide_eq_true_eq,
      Bool.not_eq_true'] at hc
    obtain ⟨⟨hsf, hnp1⟩, hnp2⟩ := hc
    show SafeLeft ('#' :: s)
    apply safeLeft_cons_of
    · intro t hdr hmem hpre
      obtain ⟨k₀, hk₀, rfl⟩ := List.mem_map.mp hmem
      rw [List.isPrefixOf_iff_prefix] at hpre
      have hkey : keyHead <+: keyHead ++ k₀.toList ++ ['/'] := by
        rw [List.append_assoc]
        exact List.prefix_append _ _
      have hp' : keyHead <+: ('#' :: s) ++ t := hkey.trans (by simpa using hpre)
      rcases List.prefix_or_prefix_of_prefix hp'
          (List.prefix_append ('#' :: s) t) with h' | h'
      · have hb := (List.isPrefixOf_iff_prefix).mpr h'
        rw [hnp1] at hb
        exact Bool.noConfusion hb
      · have hb := (List.isPrefixOf_iff_prefix).mpr h'
        rw [hnp2] at hb
        exact Bool.noConfusion hb
    · intro x hx
      exact by simpa using hsf x hx

theorem SafeLeft.no_pat {s : List Char} (hs : SafeLeft s) {pat hdr : List Char}
    (hmem : hdr ∈ kindHeadsL) (hh : hdr <+: pat) :
    ∀ t u v, s = u ++ v → v ≠ [] → ¬ pat.isPrefixOf (v ++ t) := by
  intro t u v hsplit hv hp
  rw [List.isPrefixOf_iff_prefix] at hp
  refine hs u v t hsplit hv hdr hmem ?_
  rw [List.isPrefixOf_iff_prefix]
  exact hh.trans hp

theorem replaceFirst_at_head {pat : List Char} (t repl : List Char) (hp : pat ≠ []) :
    replaceFirstL (pat ++ t) pat repl = repl ++ t := by
  cases pat with
  | nil => exact absurd rfl hp
  | cons c p' =>
    rw [List.cons_append, replaceFirstL]
    rw [if_pos (by rw [List.isPrefixOf_iff_prefix]; exact ⟨t, by simp⟩)]
    congr 1
    have e : c :: (p' ++ t) = (c :: p') ++ t := by simp
    rw [e, List.drop_left]

theorem replaceFirst_append_of_safe {s t pat repl : List Char}
    (h : ∀ u v, s = u ++ v → v ≠ [] → ¬ pat.isPrefixOf (v ++ t)) :
    replaceFirstL (s ++ t) pat repl = s ++ replaceFirstL t pat repl := by
  induction s with
  | nil => simp
  | cons c s' ih =>
    rw [List.cons_append, replaceFirstL]
    have hno : ¬ pat.isPrefixOf (c :: (s' ++ t)) := by
      have := h [] (c :: s') rfl (by simp)
      simpa using this
    rw [if_neg hno, List.cons_append]
    congr 1
    exact ih (fun u v hs hv => h (c :: u) v (by rw [hs]; rfl) hv)

theorem foldReplace_chunks {doc : List Chunk} (h : wfChunks doc = true)
    (pre : List Char) (hpre : SafeLeft pre) :
    (refTexts doc).foldl (fun acc m => replaceFirstL acc m (refReplacement m))
        (pre ++ flattenChunks doc)
      = pre ++ (doc.map Chunk.rewriteText).flatten := by
  induction doc generalizing pre with
  | nil => simp [refTexts, flattenChunks]
  | cons c rest ih =>
    obtain ⟨hc, hq, hrest⟩ := wfChunks_cons h
    have hsafe := safeLeft_rewriteText hc
    cases c with
    | plain s =>
      rw [refTexts_cons_plain, flattenChunks_cons]
      have e : pre ++ ((Chunk.plain s).text ++ flattenChunks rest)
          = (pre ++ s) ++ flattenChunks rest := by simp [Chunk.text]
      rw [e, ih hrest (pre ++ s)
        (hpre.append (by simpa [Chunk.rewriteText, Chunk.text] using hsafe))]
      simp [Chunk.rewriteText, Chunk.text]
    | other k n =>
      rw [refTexts_cons_other, flattenChunks_cons]
      have e : pre ++ ((Chunk.other k n).text ++ flattenChunks rest)
          = (pre ++ (Chunk.other k n).text) ++ flattenChunks rest := by simp
      rw [e, ih hrest _ (hpre.append (by simpa [Chunk.rewriteText] using hsafe))]
      simp [Chunk.rewriteText]
    | hash s =>
      rw [refTexts_cons_hash, flattenChunks_cons]
      have e : pre ++ ((Chunk.hash s).text ++ flattenChunks rest)
          = (pre ++ (Chunk.hash s).text) ++ flattenChunks rest := by simp
      rw [e, ih hrest _ (hpre.append (by simpa [Chunk.rewriteText] using hsafe))]
      simp [Chunk.rewriteText]
    | ref k n =>
      rw [refTexts_cons_ref, flattenChunks_cons, List.foldl_cons]
      simp only [Chunk.wfOne, Bool.and_eq_true, List.all_eq_true, decide_eq_true_eq,
        Bool.not_eq_true'] at hc
      obtain ⟨⟨hkmem, -⟩, -⟩ := hc
      have hdrmem : keyHead ++ k.toList ++ ['/'] ∈ kindHeadsL := by
        unfold kindHeadsL
        have := List.mem_map_of_mem (fun k : String => keyHead ++ k.toList ++ ['/']) hkmem
        simpa using this
      have hdrpre : (keyHead ++ k.toList ++ ['/']) <+: (Chunk.ref k n).text :=
        ⟨n, by simp [Chunk.text]⟩
      have hMne : (Chunk.ref k n).text ≠ [] := by
        simp [Chunk.text, keyHead_cons]
      have hstep : replaceFirstL (pre ++ ((Chunk.ref k n).text ++ flattenChunks rest))
            (Chunk.ref k n).text (refReplacement (Chunk.ref k n).text)
          = (pre ++ refReplacement (Chunk.ref k n).text) ++ flattenChunks rest := by
        rw [replaceFirst_append_of_safe
          (fun u v hs' hv => hpre.no_pat hdrmem hdrpre _ u v hs' hv)]
        rw [replaceFirst_at_head _ _ hMne]
        simp
      rw [hstep, ih hrest _ (hpre.append (by simpa [Chunk.rewriteText] using hsafe))]
      simp [Chunk.rewriteText, Chunk.text]

theorem refReplacement_ref (k : String) (n : List Char) :
    refReplacement (keyHead ++ k.toList ++ '/' :: n)
      = lastSegment n ++ ".json".toList := by
  unfold refReplacement
  congr 1
  have e : keyHead ++ k.toList ++ '/' :: n = (keyHead ++ k.toList) ++ '/' :: n := by
    simp
  rw [e, lastSegment_append_slash]

theorem mem_refTexts {doc : List Chunk} {m : List Char} (h : m ∈ refTexts doc) :
    ∃ k n, Chunk.ref k n ∈ doc ∧ m = keyHead ++ k.toList ++ '/' :: n := by
  unfold refTexts at h
  rw [List.mem_filterMap] at h
  obtain ⟨c, hc, hm⟩ := h
  cases c with
  | ref k n =>
    refine ⟨k, n, hc, ?_⟩
    simpa [Chunk.isRefChunk, Chunk.text] using hm.symm
  | plain s => simp [Chunk.isRefChunk] at hm
  | other k n => simp [Chunk.isRefChunk] at hm
  | hash s => simp [Chunk.isRefChunk] at hm

theorem refTexts_dollarFree {doc : List Chunk} (hd : doc.all Chunk.dollarOk = true) :
    ∀ m ∈ refTexts doc, ∀ c ∈ refReplacement m, c ≠ '$' := by
  intro m hm
  obtain ⟨k, n, hmem, rfl⟩ := mem_refTexts hm
  rw [refReplacement_ref]
  intro c hc
  rcases List.mem_append.mp hc with h | h
  · have hall := List.all_eq_true.mp hd _ hmem
    simp only [Chunk.dollarOk, List.all_eq_true, decide_eq_true_eq] at hall
    exact hall c h
  · have hc5 : c ∈ ['.', 'j', 's', 'o', 'n'] := h
    fin_cases hc5 <;> decide

theorem getSubstitution_dollarFree {repl : List Char} (h : ∀ c ∈ repl, c ≠ '$')
    (m b a : List Char) : getSubstitution repl m b a = repl := by
  induction repl with
  | nil => rfl
  | cons c rest ih =>
    have hc : ¬ (c = '$') := h c (List.mem_cons_self _ _)
    have hrest : ∀ x ∈ rest, x ≠ '$' := fun x hx => h x (List.mem_cons_of_mem _ hx)
    cases rest with
    | nil => rfl
    | cons d rest2 =>
      show (if c = '$' then _ else c :: getSubstitution (d :: rest2) m b a)
          = c :: d :: rest2
      rw [if_neg hc, ih hrest]

theorem jsReplace_eq_replaceFirstL {pat repl : List Char}
    (h : ∀ c ∈ repl, c ≠ '$') :
    ∀ before s, jsReplace before s pat repl = replaceFirstL s pat repl := by
  intro before s
  induction s generalizing before with
  | nil => rfl
  | cons c rest ih =>
    show (if pat.isPrefixOf (c :: rest) then _ else _) = _
    rw [replaceFirstL]
    by_cases hp : pat.isPrefixOf (c :: rest)
    · rw [if_pos hp, if_pos hp, getSubstitution_dollarFree h]
    · rw [if_neg hp, if_neg hp, ih]

theorem foldl_replace_ext {ms : List (List Char)}
    (hfree : ∀ m ∈ ms, ∀ c ∈ refReplacement m, c ≠ '$') :
    ∀ init : List Char,
      ms.foldl (fun acc m => jsReplace [] acc m (refReplacement m)) init
        = ms.foldl (fun acc m => replaceFirstL acc m (refReplacement m)) init := by
  induction ms with
  | nil => intro init; rfl
  | cons m rest ih =>
    intro init
    rw [List.foldl_cons, List.foldl_cons,
      jsReplace_eq_replaceFirstL (hfree m (List.mem_cons_self _ _)) [] init]
    exact ih (fun m' hm' => hfree m' (List.mem_cons_of_mem _ hm')) _

/-- The rewrite loop on a well-formed serialized document whose reference
names have dollar-free last segments: every fixed-set reference match becomes
`<last segment>.json`, and all plain text, non-fixed-set references and
`#`-headed text outside `#/components/` are left unchanged. -/
theorem rewriteRefs_chunks {doc : List Chunk} (h : wfChunks doc = true)
    (hd : doc.all Chunk.dollarOk = true) :
    rewriteRefs (flattenChunks doc) = (doc.map Chunk.rewriteText).flatten := by
  unfold rewriteRefs
  rw [findRefs_flatten h, foldl_replace_ext (refTexts_dollarFree hd)]
  have := foldReplace_chunks h [] safeLeft_nil
  simpa using this

/-- After the rewrite no fixed-set reference head occurs anywhere in the
document. -/
theorem safeLeft_rewritten {doc : List Chunk} (h : wfChunks doc = true) :
    SafeLeft ((doc.map Chunk.rewriteText).flatten) := by
  induction doc with
  | nil => simpa using safeLeft_nil
  | cons c rest ih =>
    obtain ⟨hc, -, hrest⟩ := wfChunks_cons h
    simpa using (safeLeft_rewriteText hc).append (ih hrest)

/-! ## Field-level lemmas for object mutation -/
theorem find?_go_self (fs : List (String × Json)) (k : String) (w : Json) :
    (Json.setField.go fs k w).find? (fun kv => kv.1 = k) = some (k, w) := by
  induction fs with
  | nil => simp [Json.setField.go]
  | cons kv rest ih =>
    obtain ⟨k', v'⟩ := kv
    by_cases hk : k' = k
    · simp [Json.setField.go, hk]
    · simp only [Json.setField.go, if_neg hk]
      rw [List.find?_cons_of_neg _ (by simpa using hk), ih]

theorem find?_go_ne (fs : List (String × Json)) (k : String) (w : Json)
    {key : String} (h : key ≠ k) :
    (Json.setField.go fs k w).find? (fun kv => kv.1 = key)
      = fs.find? (fun kv => kv.1 = key) := by
  have hkk : ¬ (k = key) := fun hcon => h hcon.symm
  induction fs with
  | nil =>
    simp only [Json.setField.go]
    rw [List.find?_cons_of_neg _ (by simpa using hkk)]
  | cons kv rest ih =>
    obtain ⟨k', v'⟩ := kv
    by_cases hk : k' = k
    · simp only [Json.setField.go, if_pos hk]
      have hk'key : ¬ (k' = key) := fun hcon => h (hcon ▸ hk)
      rw [List.find?_cons_of_neg _ (by simpa using hkk),
        List.find?_cons_of_neg _ (by simpa using hk'key)]
    · simp only [Json.setField.go, if_neg hk]
      by_cases hkey : k' = key
      · rw [List.find?_cons_of_pos _ (by simpa using hkey),
          List.find?_cons_of_pos _ (by simpa using hkey)]
      · rw [List.find?_cons_of_neg _ (by simpa using hkey),
          List.find?_cons_of_neg _ (by simpa using hkey), ih]

theorem find?_filter_self (fs : List (String × Json)) (k : String) :
    (fs.filter (fun kv => kv.1 ≠ k)).find? (fun kv => kv.1 = k) = none := by
  rw [List.find?_eq_none]
  intro kv hkv
  have := List.of_mem_filter hkv
  simpa using this

theorem find?_filter_ne (fs : List (String × Json)) (k : String)
    {key : String} (h : key ≠ k) :
    (fs.filter (fun kv => kv.1 ≠ k)).find? (fun kv => kv.1 = key)
      = fs.find? (fun kv => kv.1 = key) := by
  induction fs with
  | nil => simp
  | cons kv rest ih =>
    obtain ⟨k', v'⟩ := kv
    by_cases hk : k' = k
    · have hne : ¬ (k' = key) := fun hcon => h (by rw [← hcon, hk])
      rw [List.filter_cons_of_neg (by simp [hk]),
        List.find?_cons_of_neg _ (by simpa using hne), ih]
    · rw [List.filter_cons_of_pos (by simpa using hk)]
      by_cases hkey : k' = key
      · rw [List.find?_cons_of_pos _ (by simpa using hkey),
          List.find?_cons_of_pos _ (by simpa using hkey)]
      · rw [List.find?_cons_of_neg _ (by simpa using hkey),
          List.find?_cons_of_neg _ (by simpa using hkey), ih]

theorem lookup_setField_self (fs : List (String × Json)) (k : String) (w : Json) :
    ((Json.obj fs).setField k w).lookup k = some w := by
  show (Json.obj (Json.setField.go fs k w)).lookup k = some w
  simp only [Json.lookup]
  rw [find?_go_self]
  rfl

theorem lookup_setField_ne (fs : List (String × Json)) (k : String) (w : Json)
    {key : String} (h : key ≠ k) :
    ((Json.obj fs).setField k w).lookup key = (Json.obj fs).lookup key := by
  show (Json.obj (Json.setField.go fs k w)).lookup key = _
  simp only [Json.lookup]
  rw [find?_go_ne fs k w h]

theorem lookup_delField_self (fs : List (String × Json)) (k : String) :
    ((Json.obj fs).delField k).lookup k = none := by
  show (Json.obj (fs.filter (fun kv => kv.1 ≠ k))).lookup k = none
  simp only [Json.lookup]
  rw [find?_filter_self]
  rfl

theorem lookup_delField_ne (fs : List (String × Json)) (k : String)
    {key : String} (h : key ≠ k) :
    ((Json.obj fs).delField k).lookup key = (Json.obj fs).lookup key := by
  show (Json.obj (fs.filter (fun kv => kv.1 ≠ k))).lookup key = _
  simp only [Json.lookup]
  rw [find?_filter_ne fs k h]

/-- The adapted schema of an object entry: `$schema` gone, `title` and `$id`
set, `tsType` added exactly when the (unchanged) `format` contains `date`,
every other key untouched. -/
theorem adaptSchema_spec {fs : List (String × Json)} {name : Json} {filename : String}
    {out : Json} (h : adaptSchema (.obj fs) name filename = .ok out) :
    out.lookup "$schema" = none ∧
    out.lookup "title" = some name ∧
    out.lookup "$id" = some (.str (sanitizeUri filename ++ ".json")) ∧
    (formatIncludesDate (.obj fs) = .ok true → out.lookup "tsType" = some (.str "Date")) ∧
    (formatIncludesDate (.obj fs) = .ok false →
      out.lookup "tsType" = (Json.obj fs).lookup "tsType") ∧
    (∀ key : String, key ≠ "$schema" → key ≠ "title" → key ≠ "$id" → key ≠ "tsType" →
      out.lookup key = (Json.obj fs).lookup key) := by
  set fs1 : List (String × Json) := fs.filter (fun kv => kv.1 ≠ "$schema") with hfs1
  set fs2 : List (String × Json) := Json.setField.go fs1 "title" name with hfs2
  set fs3 : List (String × Json) :=
    Json.setField.go fs2 "$id" (.str (sanitizeUri filename ++ ".json")) with hfs3
  have e1 : (Json.obj fs).delField "$schema" = .obj fs1 := rfl
  have e2 : (Json.obj fs1).setField "title" name = .obj fs2 := rfl
  have e3 : (Json.obj fs2).setField "$id" (.str (sanitizeUri filename ++ ".json"))
      = .obj fs3 := rfl
  have hlookup3 : ∀ key : String, key ≠ "$schema" → key ≠ "title" → key ≠ "$id" →
      (Json.obj fs3).lookup key = (Json.obj fs).lookup key := by
    intro key h1 h2 h3
    rw [← e3, lookup_setField_ne fs2 _ _ h3, ← e2, lookup_setField_ne fs1 _ _ h2,
      ← e1, lookup_delField_ne fs _ h1]
  have hfmt3 : formatIncludesDate (.obj fs3) = formatIncludesDate (.obj fs) := by
    unfold formatIncludesDate
    rw [hlookup3 "format" (by decide) (by decide) (by decide)]
  have htitle3 : (Json.obj fs3).lookup "title" = some name := by
    rw [← e3, lookup_setField_ne fs2 _ _ (by decide), ← e2, lookup_setField_self]
  have hid3 : (Json.obj fs3).lookup "$id" = some (.str (sanitizeUri filename ++ ".json")) := by
    rw [← e3, lookup_setField_self]
  have hschema3 : (Json.obj fs3).lookup "$schema" = none := by
    rw [← e3, lookup_setField_ne fs2 _ _ (by decide), ← e2,
      lookup_setField_ne fs1 _ _ (by decide), ← e1, lookup_delField_self]
  have hout : adaptSchema (.obj fs) name filename
      = (match formatIncludesDate (.obj fs3) with
        | .error e => .error e
        | .ok b => .ok (if b then (Json.obj fs3).setField "tsType" (.str "Date")
                        else .obj fs3)) := rfl
  rw [hout] at h
  cases hfmt : formatIncludesDate (.obj fs3) with
  | error e =>
    rw [hfmt] at h
    simp at h
  | ok b =>
    rw [hfmt] at h
    have hfmtfs : formatIncludesDate (.obj fs) = .ok b := by rw [← hfmt3, hfmt]
    dsimp only at h
    injection h with h
    cases b with
    | true =>
      have hx : (Json.obj fs3).setField "tsType" (.str "Date") = out := by
        simpa using h
      subst hx
      refine ⟨?_, ?_, ?_, ?_, ?_, ?_⟩
      · rw [lookup_setField_ne fs3 _ _ (by decide)]
        exact hschema3
      · rw [lookup_setField_ne fs3 _ _ (by decide)]
        exact htitle3
      · rw [lookup_setField_ne fs3 _ _ (by decide)]
        exact hid3
      · intro _
        rw [lookup_setField_self]
      · intro hcon
        rw [hfmtfs] at hcon
        simp at hcon
      · intro key h1 h2 h3 h4
        rw [lookup_setField_ne fs3 _ _ h4]
        exact hlookup3 key h1 h2 h3
    | false =>
      have hx : Json.obj fs3 = out := by simpa using h
      subst hx
      refine ⟨hschema3, htitle3, hid3, ?_, ?_, ?_⟩
      · intro hcon
        rw [hfmtfs] at hcon
        simp at hcon
      · intro _
        exact hlookup3 "tsType" (by decide) (by decide) (by decide)
      · intro key h1 h2 h3 _
        exact hlookup3 key h1 h2 h3

/-! ## Claim theorems -/
/-- Claim C5 (corrected): for every object schema entry adapted with resolved
name `n` and filename `f` without throwing, the adapted schema has no
`$schema` key, `title` equals the resolved name, `$id` equals the sanitized
filename plus `.json`, and `tsType` is `"Date"` whenever the
`format?.includes('date')` check is true — a substring test on a string
`format`, an element test on an array `format` (a non-string non-array
`format` makes the method call throw, so adaptation yields no output then).
When the check is false, the `tsType` key is exactly the input entry's — the
claim's stronger assertion that `tsType` is then absent fails when the input
already carried a `tsType` key (see the counterexample), since adaptation
never removes it. -/
theorem c5_adaptSchema_adapted (fs : List (String × Json)) (n : String)
    (filename : String) {out : Json}
    (h : adaptSchema (.obj fs) (.str n) filename = .ok out) :
    out.lookup "$schema" = none ∧
    out.lookup "title" = some (.str n) ∧
    out.lookup "$id" = some (.str (sanitizeUri filename ++ ".json")) ∧
    (formatIncludesDate (.obj fs) = .ok true → out.lookup "tsType" = some (.str "Date")) ∧
    (formatIncludesDate (.obj fs) = .ok false →
      out.lookup "tsType" = (Json.obj fs).lookup "tsType") := by
  obtain ⟨h1, h2, h3, h4, h5, -⟩ := adaptSchema_spec h
  exact ⟨h1, h2, h3, h4, h5⟩

/-- Claim C5, counterexample to the claim as stated: an entry whose `format`
does not contain `date` but that already carries `tsType: "Date"` is emitted
with `tsType` present, refuting "for all entries whose format does not
contain date, tsType is absent from the emitted schema". -/
theorem c5_counterexample :
    adaptSchema (.obj [("tsType", Json.str "Date")]) (.str "N") "N"
      = .ok (.obj [("tsType", Json.str "Date"), ("title", Json.str "N"),
          ("$id", Json.str "N.json")]) ∧
    formatIncludesDate (.obj [("tsType", Json.str "Date")]) = .ok false ∧
    (Json.obj [("tsType", Json.str "Date"), ("title", Json.str "N"),
        ("$id", Json.str "N.json")]).lookup "tsType" = some (Json.str "Date") :=
  ⟨rfl, rfl, rfl⟩

/-- Claim C5, witness: the amended theorem applied to a concrete entry with
`format: "date-time"`; the trailing equations exercise the array and throw
branches of the `format?.includes('date')` check (`format: ["date"]` sets
`tsType`, a numeric `format` throws). -/
theorem c5_witness :
    (adaptSchema (.obj [("format", Json.str "date-time")]) (.str "Foo") "Foo"
      = .ok (.obj [("format", Json.str "date-time"), ("title", Json.str "Foo"),
          ("$id", Json.str "Foo.json"), ("tsType", Json.str "Date")])) ∧
    ((Json.obj [("format", Json.str "date-time"), ("title", Json.str "Foo"),
        ("$id", Json.str "Foo.json"), ("tsType", Json.str "Date")]).lookup "$schema" = none ∧
      (Json.obj [("format", Json.str "date-time"), ("title", Json.str "Foo"),
        ("$id", Json.str "Foo.json"), ("tsType", Json.str "Date")]).lookup "title"
          = some (.str "Foo") ∧
      (Json.obj [("format", Json.str "date-time"), ("title", Json.str "Foo"),
        ("$id", Json.str "Foo.json"), ("tsType", Json.str "Date")]).lookup "$id"
          = some (.str (sanitizeUri "Foo" ++ ".json")) ∧
      (formatIncludesDate (.obj [("format", Json.str "date-time")]) = .ok true →
        (Json.obj [("format", Json.str "date-time"), ("title", Json.str "Foo"),
          ("$id", Json.str "Foo.json"), ("tsType", Json.str "Date")]).lookup "tsType"
            = some (.str "Date")) ∧
      (formatIncludesDate (.obj [("format", Json.str "date-time")]) = .ok false →
        (Json.obj [("format", Json.str "date-time"), ("title", Json.str "Foo"),
          ("$id", Json.str "Foo.json"), ("tsType", Json.str "Date")]).lookup "tsType"
            = (Json.obj [("format", Json.str "date-time")]).lookup "tsType")) ∧
    (adaptSchema (.obj [("format", Json.arr [Json.str "date"])]) (.str "A") "A"
      = .ok (.obj [("format", Json.arr [Json.str "date"]), ("title", Json.str "A"),
          ("$id", Json.str "A.json"), ("tsType", Json.str "Date")])) ∧
    adaptSchema (.obj [("format", Json.num 3)]) (.str "A") "A" = .error () :=
  ⟨rfl, c5_adaptSchema_adapted _ "Foo" "Foo" rfl, rfl, rfl⟩

/-- Claim C10 (confirmed): adaptation deletes only `$schema`, overwrites only
`title` and `$id`, and at most adds `tsType`; every other key of the schema
object keeps its original value in the adapted schema. -/
theorem c10_adaptSchema_frame (fs : List (String × Json)) (name : Json)
    (filename : String) {out : Json}
    (h : adaptSchema (.obj fs) name filename = .ok out) :
    ∀ key : String, key ≠ "$schema" → key ≠ "title" → key ≠ "$id" → key ≠ "tsType" →
      out.lookup key = (Json.obj fs).lookup key :=
  (adaptSchema_spec h).2.2.2.2.2

/-- Claim C10, witness: the frame theorem applied at a concrete entry and
key. -/
theorem c10_witness :
    (Json.obj [("type", Json.str "string"), ("title", Json.str "N"),
        ("$id", Json.str "N.json")]).lookup "type"
      = (Json.obj [("type", Json.str "string")]).lookup "type" :=
  c10_adaptSchema_frame [("type", Json.str "string")] (.str "N") "N" rfl
    "type" (by decide) (by decide) (by decide) (by decide)

/-- Claim C8 (confirmed): when the input cannot be read, `runCommand`
terminates the process with exit status 1; the output directory has been
removed and recreated empty before the read attempt, and no file has been
written into it. -/
theorem c8_unreadable_input (conv : Except Unit Json) (props : Option String) :
    runCommand none conv props = ⟨.exited 1, [readErrorMessage], [], true⟩ := rfl

/-- Claim C7 (confirmed): if component or path extraction raises after the
input was read and converted, `runCommand` returns normally (no process
exit), logs the warning, stops extracting further items, and the output
directory holds exactly the files written before the failing step — nothing
is rolled back. -/
theorem c7_extraction_error (parsed generated : Json) (props : Option String)
    (hfail : (processComponents (componentsKeywordsOf props) generated parsed).2 = true
        ∨ (processPathSchemas generated).2 = true) :
    (runCommand (some parsed) (.ok generated) props).result = .returned ∧
    (runCommand (some parsed) (.ok generated) props).log = [warnMessage] ∧
    (runCommand (some parsed) (.ok generated) props).files
      = (processComponents (componentsKeywordsOf props) generated parsed).1
        ++ (if (processComponents (componentsKeywordsOf props) generated parsed).2
            then [] else (processPathSchemas generated).1) := by
  unfold runCommand
  cases hc : processComponents (componentsKeywordsOf props) generated parsed with
  | mk ws1 e1 =>
    cases e1 with
    | true => simp [hc]
    | false =>
      cases hp : processPathSchemas generated with
      | mk ws2 e2 =>
        cases e2 with
        | true => simp [hc, hp]
        | false =>
          rw [hc, hp] at hfail
          simp at hfail

/-- Claim C7, witness: a document whose `components.schemas.Foo` is `null`
(not an object) throws during adaptation after `Bar` was written; the run
returns with a warning and `Bar`'s file intact. -/
theorem c7_witness :
    (runCommand
        (some (Json.obj [("components", Json.obj [("schemas", Json.obj
          [("Bar", Json.obj [("type", Json.str "string")]), ("Foo", Json.null)])])]))
        (.ok (Json.obj [("components", Json.obj [("schemas", Json.obj
          [("Bar", Json.obj [("type", Json.str "string")]), ("Foo", Json.null)])])]))
        none).result = .returned ∧
    (runCommand
        (some (Json.obj [("components", Json.obj [("schemas", Json.obj
          [("Bar", Json.obj [("type", Json.str "string")]), ("Foo", Json.null)])])]))
        (.ok (Json.obj [("components", Json.obj [("schemas", Json.obj
          [("Bar", Json.obj [("type", Json.str "string")]), ("Foo", Json.null)])])]))
        none).log = [warnMessage] ∧
    (runCommand
        (some (Json.obj [("components", Json.obj [("schemas", Json.obj
          [("Bar", Json.obj [("type", Json.str "string")]), ("Foo", Json.null)])])]))
        (.ok (Json.obj [("components", Json.obj [("schemas", Json.obj
          [("Bar", Json.obj [("type", Json.str "string")]), ("Foo", Json.null)])])]))
        none).files
      = (processComponents (componentsKeywordsOf none)
          (Json.obj [("components", Json.obj [("schemas", Json.obj
            [("Bar", Json.obj [("type", Json.str "string")]), ("Foo", Json.null)])])])
          (Json.obj [("components", Json.obj [("schemas", Json.obj
            [("Bar", Json.obj [("type", Json.str "string")]), ("Foo", Json.null)])])])).1
        ++ (if (processComponents (componentsKeywordsOf none)
            (Json.obj [("components", Json.obj [("schemas", Json.obj
              [("Bar", Json.obj [("type", Json.str "string")]), ("Foo", Json.null)])])])
            (Json.obj [("components", Json.obj [("schemas", Json.obj
              [("Bar", Json.obj [("type", Json.str "string")]), ("Foo", Json.null)])])])).2
            then []
            else (processPathSchemas (Json.obj [("components", Json.obj [("schemas", Json.obj
              [("Bar", Json.obj [("type", Json.str "string")]), ("Foo", Json.null)])])])).1) :=
  c7_extraction_error _ _ none (Or.inl (by decide))

/-- One unfolding step of `processEntries`. -/
theorem processEntries_cons (isArr : Bool) (kw key : String) (v : Json)
    (rest : List (String × Json)) :
    processEntries isArr kw ((key, v) :: rest)
      = match processEntry isArr kw key v with
        | .error _ => ([], true)
        | .ok none => processEntries isArr kw rest
        | .ok (some w) =>
          let (ws, e) := processEntries isArr kw rest
          (w :: ws, e) := rfl

/-- In array mode the entry key (the array index) is never consulted: the
name is read from the element itself. -/
theorem processEntries_keys_irrelevant (kw : String) :
    ∀ (es es' : List (String × Json)), es.map (·.2) = es'.map (·.2) →
      processEntries true kw es = processEntries true kw es' := by
  intro es
  induction es with
  | nil =>
    intro es' h
    cases es' with
    | nil => rfl
    | cons kv rest => simp at h
  | cons kv rest ih =>
    intro es' h
    cases es' with
    | nil => simp at h
    | cons kv' rest' =>
      obtain ⟨k, v⟩ := kv
      obtain ⟨k', v'⟩ := kv'
      simp only [List.map_cons, List.cons.injEq] at h
      obtain ⟨hv, hrest⟩ := h
      subst hv
      rw [processEntries_cons, processEntries_cons]
      rw [show processEntry true kw k' v = processEntry true kw k v from rfl]
      rw [ih rest' hrest]

theorem processSchema_arr (xs : List Json) (kw : String) :
    processSchema (.arr xs) kw true
      = processEntries true kw (xs.map (fun v => ("", v))) := by
  unfold processSchema
  show processEntries true kw (xs.enum.map (fun p => (toString p.1, p.2))) = _
  apply processEntries_keys_irrelevant
  rw [List.map_map, List.map_map]
  have h1 : ((fun kv : String × Json => kv.2) ∘ fun p : Nat × Json => (toString p.1, p.2))
      = Prod.snd := rfl
  have h2 : ((fun kv : String × Json => kv.2) ∘ fun v : Json => ("", v)) = id := rfl
  rw [h1, h2, List.enum_map_snd, List.map_id]

theorem processEntries_cons_skip (kw key : String) {fs : List (String × Json)}
    (hname : (Json.obj fs).lookup "name" = none) (rest : List (String × Json)) :
    processEntries true kw ((key, Json.obj fs) :: rest)
      = processEntries true kw rest := by
  rw [processEntries_cons]
  have hpe : processEntry true kw key (.obj fs) = .ok none := by
    unfold processEntry
    simp only [Json.jsGet, Json.lookupD, hname]
    rfl
  rw [hpe]

/-- Claim C9 (confirmed; the skip itself is spec-modelled via `getFilename`):
an array-collection element with no `name` field is skipped silently — no
filename, no write, no error — and the other entries are processed exactly
as if it were absent. -/
theorem c9_skip_unnamed (pre post : List Json) (fs : List (String × Json))
    (hname : (Json.obj fs).lookup "name" = none) (kw : String) :
    processSchema (.arr (pre ++ Json.obj fs :: post)) kw true
      = processSchema (.arr (pre ++ post)) kw true := by
  rw [processSchema_arr, processSchema_arr]
  induction pre with
  | nil =>
    simp only [List.nil_append, List.map_cons]
    exact processEntries_cons_skip kw "" hname _
  | cons c pre' ih =>
    simp only [List.cons_append, List.map_cons]
    rw [processEntries_cons, processEntries_cons, ih]

/-- Claim C9, witness: dropping the unnamed element of a two-element array
collection leaves the output unchanged. -/
theorem c9_witness :
    processSchema (.arr [Json.obj [("name", Json.str "A"), ("type", Json.str "string")],
        Json.obj [("type", Json.str "number")]]) "components.examples" true
      = processSchema (.arr [Json.obj [("name", Json.str "A"), ("type", Json.str "string")]])
          "components.examples" true :=
  c9_skip_unnamed [Json.obj [("name", Json.str "A"), ("type", Json.str "string")]] []
    [("type", Json.str "number")] rfl "components.examples"

theorem setField_go_append {props : List (String × Json)} {k : String}
    (h : ∀ kv ∈ props, kv.1 ≠ k) (w : Json) :
    Json.setField.go props k w = props ++ [(k, w)] := by
  induction props with
  | nil => rfl
  | cons kv rest ih =>
    obtain ⟨k', v'⟩ := kv
    have hne : k' ≠ k := h (k', v') (List.mem_cons_self _ _)
    simp only [Json.setField.go, if_neg hne, List.cons_append]
    rw [ih (fun kv hkv => h kv (List.mem_cons_of_mem _ hkv))]

theorem buildParamsAcc_spec (ps : List Json)
    (hobj : ps.all Json.isObjB = true)
    (hnames : ps.all Json.nameOkB = true)
    (hnodup : (ps.map (fun p => (p.lookupD "name").jsToString)).Nodup)
    (props : List (String × Json)) (reqs : List Json)
    (hfresh : ∀ kv ∈ props, ∀ p ∈ ps, kv.1 ≠ (p.lookupD "name").jsToString) :
    buildParamsAcc ps props reqs
      = .ok (props ++ ps.map (fun p =>
              ((p.lookupD "name").jsToString, Json.obj [("schema", p.lookupD "schema")])),
             reqs ++ (ps.filter (fun p => (p.lookupD "required").truthy)).map
               (fun p => p.lookupD "name")) := by
  induction ps generalizing props reqs with
  | nil => simp [buildParamsAcc]
  | cons p rest ih =>
    simp only [List.all_cons, Bool.and_eq_true] at hobj hnames
    simp only [List.map_cons, List.nodup_cons] at hnodup
    obtain ⟨fs, rfl⟩ : ∃ fs, p = Json.obj fs := by
      cases p <;> simp [Json.isObjB] at hobj ⊢
    obtain ⟨s, hs, hs0⟩ : ∃ s : String,
        (Json.obj fs).lookupD "name" = .str s ∧ s ≠ "" := by
      cases hn : (Json.obj fs).lookupD "name" <;>
        simp [Json.nameOkB, hn] at hobj hnames ⊢
      exact hnames.1
    unfold buildParamsAcc
    dsimp only
    rw [hs]
    have htr : (Json.str s).truthy = true := by simp [Json.truthy, hs0]
    rw [if_pos htr]
    rw [show (Json.str s).jsToString = s from rfl]
    have hsets : Json.setField.go props s (.obj [("schema", (Json.obj fs).lookupD "schema")])
        = props ++ [(s, Json.obj [("schema", (Json.obj fs).lookupD "schema")])] := by
      apply setField_go_append
      intro kv hkv
      have := hfresh kv hkv (Json.obj fs) (List.mem_cons_self _ _)
      rwa [hs] at this
    rw [hsets]
    have hfresh' : ∀ kv ∈ props ++ [(s, Json.obj [("schema", (Json.obj fs).lookupD "schema")])],
        ∀ p' ∈ rest, kv.1 ≠ (p'.lookupD "name").jsToString := by
      intro kv hkv p' hp'
      rcases List.mem_append.mp hkv with hkv | hkv
      · exact hfresh kv hkv p' (List.mem_cons_of_mem _ hp')
      · have hkv' : kv = (s, Json.obj [("schema", (Json.obj fs).lookupD "schema")]) := by
          simpa using hkv
        rw [hkv']
        show s ≠ _
        intro hcon
        refine hnodup.1 ?_
        rw [hs]
        show Json.jsToString (.str s) ∈ _
        rw [show Json.jsToString (.str s) = s from rfl, hcon]
        exact List.mem_map_of_mem _ hp'
    rw [ih hobj.2 hnames.2 hnodup.2 _ _ hfresh']
    simp only [List.map_cons, List.filter_cons, hs]
    rw [show Json.jsToString (Json.str s) = s from rfl]
    by_cases hreq : ((Json.obj fs).lookupD "required").truthy = true
    · rw [if_pos hreq, if_pos hreq]
      simp [hs]
    · rw [if_neg hreq, if_neg hreq]
      simp

/-- Claim C6 (corrected): for every list of object parameters with distinct
nonempty string names, the built schema is object-typed with
`additionalProperties: false`, its `required` lists exactly the names of the
parameters whose `required` is truthy, and its `properties` maps each
parameter's name to the wrapper object `\x7b "schema": <its schema> \x7d` —
not to the parameter's `schema` value itself, as the claim as stated would
have it (see the counterexample). -/
theorem c6_buildSchemaFromParameters (ps : List Json)
    (hobj : ps.all Json.isObjB = true)
    (hnames : ps.all Json.nameOkB = true)
    (hnodup : (ps.map (fun p => (p.lookupD "name").jsToString)).Nodup) :
    buildSchemaFromParameters ps
      = .ok (.obj [("type", .str "object"),
          ("properties", .obj (ps.map (fun p =>
            ((p.lookupD "name").jsToString, Json.obj [("schema", p.lookupD "schema")])))),
          ("required", .arr ((ps.filter (fun p => (p.lookupD "required").truthy)).map
            (fun p => p.lookupD "name"))),
          ("additionalProperties", .bool false)]) := by
  unfold buildSchemaFromParameters
  rw [buildParamsAcc_spec ps hobj hnames hnodup [] [] (by intro kv hkv; cases hkv)]
  rfl

/-- Claim C6, counterexample to the claim as stated: the built `properties`
maps the parameter name `id` to the wrapper `\x7b "schema": \x7b "type":
"string" \x7d \x7d`, which differs from the parameter's `schema` value
`\x7b "type": "string" \x7d`. -/
theorem c6_counterexample :
    buildSchemaFromParameters [Json.obj [("name", Json.str "id"),
        ("required", Json.bool true), ("schema", Json.obj [("type", Json.str "string")])]]
      = .ok (.obj [("type", Json.str "object"),
          ("properties", .obj [("id",
            Json.obj [("schema", Json.obj [("type", Json.str "string")])])]),
          ("required", .arr [Json.str "id"]),
          ("additionalProperties", Json.bool false)]) ∧
    Json.obj [("schema", Json.obj [("type", Json.str "string")])]
      ≠ Json.obj [("type", Json.str "string")] := by
  refine ⟨rfl, ?_⟩
  intro hcon
  injection hcon with hfields
  injection hfields with hpair
  injection hpair with hkey
  exact absurd hkey (by decide)

/-- Claim C6, witness: the amended theorem applied to the two-parameter list
of the path-extraction example. -/
theorem c6_witness :
    ([Json.obj [("name", Json.str "id"), ("required", Json.bool true),
        ("schema", Json.obj [("type", Json.str "string")])],
      Json.obj [("name", Json.str "verbose"),
        ("schema", Json.obj [("type", Json.str "boolean")])]].all Json.isObjB = true) ∧
    buildSchemaFromParameters
        [Json.obj [("name", Json.str "id"), ("required", Json.bool true),
          ("schema", Json.obj [("type", Json.str "string")])],
         Json.obj [("name", Json.str "verbose"),
          ("schema", Json.obj [("type", Json.str "boolean")])]]
      = .ok (.obj [("type", .str "object"),
          ("properties", .obj [("id",
              Json.obj [("schema", Json.obj [("type", Json.str "string")])]),
            ("verbose", Json.obj [("schema", Json.obj [("type", Json.str "boolean")])])]),
          ("required", .arr [Json.str "id"]),
          ("additionalProperties", .bool false)]) := by
  refine ⟨by decide, ?_⟩
  have h := c6_buildSchemaFromParameters
    [Json.obj [("name", Json.str "id"), ("required", Json.bool true),
      ("schema", Json.obj [("type", Json.str "string")])],
     Json.obj [("name", Json.str "verbose"),
      ("schema", Json.obj [("type", Json.str "boolean")])]]
    (by decide) (by decide) (by decide)
  exact h.trans (by rfl)

theorem takeWhile_eq_self_of_all {p : Char → Bool} {l : List Char}
    (h : ∀ x ∈ l, p x = true) : l.takeWhile p = l := by
  induction l with
  | nil => rfl
  | cons x l' ih =>
    rw [List.takeWhile_cons_of_pos (h x (List.mem_cons_self _ _)),
      ih (fun y hy => h y (List.mem_cons_of_mem _ hy))]

theorem lastSegment_no_slash {n : List Char} (h : '/' ∉ n) : lastSegment n = n := by
  unfold lastSegment
  rw [takeWhile_eq_self_of_all, List.reverse_reverse]
  intro x hx
  simp only [decide_eq_true_eq]
  exact fun hcon => h (hcon ▸ List.mem_reverse.mp hx)

/-- Claim C3 (corrected): on a well-formed serialized schema document whose
fixed-set reference names have dollar-free last segments, the rewrite loop
replaces every occurrence matching `#/components/<kind>/<name>` with a
fixed-set `<kind>` by `<name>.json`, where `<name>` is the last
`/`-separated segment of the match — repeated occurrences of the same
reference included — and leaves everything else (plain text, references
whose kind is outside the fixed set, and `#`-headed text that does not
start with `#/components/`) unchanged.  Without the dollar restriction the
claim as stated is false: `String.prototype.replace` expands the dollar
substitution forms in the replacement template `` `${refName}.json` ``, so
a name containing dollar ampersand splices the matched reference text back
instead of producing `<name>.json` (see the counterexample). -/
theorem c3_reference_rewriting (doc : List Chunk) (h : wfChunks doc = true)
    (hd : doc.all Chunk.dollarOk = true) :
    rewriteRefs (flattenChunks doc) = (doc.map Chunk.rewriteText).flatten ∧
    (∀ k n, Chunk.ref k n ∈ doc →
      Chunk.rewriteText (.ref k n) = lastSegment n ++ ".json".toList) ∧
    (∀ c ∈ doc, c.isRefChunk = false → Chunk.rewriteText c = c.text) := by
  refine ⟨rewriteRefs_chunks h hd, ?_, ?_⟩
  · intro k n _
    show refReplacement (keyHead ++ k.toList ++ '/' :: n) = _
    exact refReplacement_ref k n
  · intro c _ hc
    cases c with
    | plain s => rfl
    | ref k n => simp [Chunk.isRefChunk] at hc
    | other k n => rfl
    | hash s => rfl

/-- Claim C3, counterexample to the claim as stated: a document holding the
single fixed-set reference `#/components/schemas/A$&`.  The program's
`replace` expands the dollar-ampersand in the replacement template, splicing
the whole matched reference back into the output instead of producing
`A$&.json`, so the occurrence is not replaced by `<name>.json`. -/
theorem c3_counterexample :
    wfChunks [Chunk.plain "\"x\": \"".toList, Chunk.ref "schemas" "A$&".toList,
      Chunk.plain "\"".toList] = true ∧
    rewriteRefs (flattenChunks [Chunk.plain "\"x\": \"".toList,
        Chunk.ref "schemas" "A$&".toList, Chunk.plain "\"".toList])
      = "\"x\": \"A#/components/schemas/A$&.json\"".toList ∧
    rewriteRefs (flattenChunks [Chunk.plain "\"x\": \"".toList,
        Chunk.ref "schemas" "A$&".toList, Chunk.plain "\"".toList])
      ≠ "\"x\": \"A$&.json\"".toList :=
  ⟨by decide, by decide, by decide⟩

/-- Claim C3, witness: the amended rewrite theorem applied to a document
with a repeated fixed-set reference, a reference of an unknown kind, and a
`#/definitions/...` reference that does not start with `#/components/`. -/
theorem c3_witness :
    wfChunks [Chunk.plain "\"a\": \"".toList,
      Chunk.ref "schemas" "Bar".toList,
      Chunk.plain "\", \"b\": \"".toList,
      Chunk.ref "schemas" "Bar".toList,
      Chunk.plain "\", \"c\": \"".toList,
      Chunk.other "unknown".toList "Baz".toList,
      Chunk.plain "\", \"d\": \"".toList,
      Chunk.hash "/definitions/Foo".toList,
      Chunk.plain "\"".toList] = true ∧
    ([Chunk.plain "\"a\": \"".toList,
      Chunk.ref "schemas" "Bar".toList,
      Chunk.plain "\", \"b\": \"".toList,
      Chunk.ref "schemas" "Bar".toList,
      Chunk.plain "\", \"c\": \"".toList,
      Chunk.other "unknown".toList "Baz".toList,
      Chunk.plain "\", \"d\": \"".toList,
      Chunk.hash "/definitions/Foo".toList,
      Chunk.plain "\"".toList]).all Chunk.dollarOk = true ∧
    rewriteRefs (flattenChunks [Chunk.plain "\"a\": \"".toList,
      Chunk.ref "schemas" "Bar".toList,
      Chunk.plain "\", \"b\": \"".toList,
      Chunk.ref "schemas" "Bar".toList,
      Chunk.plain "\", \"c\": \"".toList,
      Chunk.other "unknown".toList "Baz".toList,
      Chunk.plain "\", \"d\": \"".toList,
      Chunk.hash "/definitions/Foo".toList,
      Chunk.plain "\"".toList])
      = (([Chunk.plain "\"a\": \"".toList,
          Chunk.ref "schemas" "Bar".toList,
          Chunk.plain "\", \"b\": \"".toList,
          Chunk.ref "schemas" "Bar".toList,
          Chunk.plain "\", \"c\": \"".toList,
          Chunk.other "unknown".toList "Baz".toList,
          Chunk.plain "\", \"d\": \"".toList,
          Chunk.hash "/definitions/Foo".toList,
          Chunk.plain "\"".toList]).map Chunk.rewriteText).flatten :=
  ⟨by decide, by decide, (c3_reference_rewriting _ (by decide) (by decide)).1⟩

/-- Claim C4 (corrected/amended): a component-schema payload (a well-formed
serialized document whose reference names have dollar-free last segments,
run through the rewrite loop of `processSchema`) contains no remaining
`#/components/<kind>/` reference for any fixed-set kind, and each fixed-set
reference with a `/`-free name `n` is rewritten to `n.json` — the filename
stem under which the like-named component entry is emitted (§4.2: the name
is trusted, no further sanitization happens at rewrite time).  The claim as
stated is refuted by the counterexample: files written by
`processParameterSchema` are never reference-rewritten and can retain the
original `#/components/...` form. -/
theorem c4_sibling_references (doc : List Chunk) (h : wfChunks doc = true)
    (hd : doc.all Chunk.dollarOk = true) :
    rewriteRefs (flattenChunks doc) = (doc.map Chunk.rewriteText).flatten ∧
    SafeLeft ((doc.map Chunk.rewriteText).flatten) ∧
    (∀ k n, Chunk.ref k n ∈ doc → '/' ∉ n →
      Chunk.rewriteText (.ref k n) = n ++ ".json".toList) := by
  refine ⟨rewriteRefs_chunks h hd, safeLeft_rewritten h, ?_⟩
  intro k n _ hsl
  show refReplacement (keyHead ++ k.toList ++ '/' :: n) = _
  rw [refReplacement_ref, lastSegment_no_slash hsl]

/-- Claim C4, counterexample to the claim as stated: the pipeline writes a
synthetic parameter-schema file whose payload still contains the original
`#/components/schemas/Chunky` JSON-pointer reference, because
`processParameterSchema` performs no reference rewriting. -/
theorem c4_counterexample :
    ((processPathSchemas (Json.obj [("paths", Json.obj [("/w", Json.obj [("get",
        Json.obj [("parameters", Json.arr [Json.obj [("name", Json.str "p"),
          ("in", Json.str "query"),
          ("schema", Json.obj [("$ref",
            Json.str "#/components/schemas/Chunky")])]])])])])])).1.map
      (fun w => containsSub "#/components/schemas/Chunky".toList w.content.toList))
      = [true] := by decide

/-- Claim C4, witness: the amended theorem applied to a document with one
fixed-set reference. -/
theorem c4_witness :
    wfChunks [Chunk.plain "\"x\": \"".toList,
      Chunk.ref "schemas" "Chunky".toList,
      Chunk.plain "\"".toList] = true ∧
    (rewriteRefs (flattenChunks [Chunk.plain "\"x\": \"".toList,
        Chunk.ref "schemas" "Chunky".toList,
        Chunk.plain "\"".toList])
      = (([Chunk.plain "\"x\": \"".toList,
          Chunk.ref "schemas" "Chunky".toList,
          Chunk.plain "\"".toList]).map Chunk.rewriteText).flatten ∧
     SafeLeft ((([Chunk.plain "\"x\": \"".toList,
          Chunk.ref "schemas" "Chunky".toList,
          Chunk.plain "\"".toList]).map Chunk.rewriteText).flatten) ∧
     (∀ k n, Chunk.ref k n ∈ [Chunk.plain "\"x\": \"".toList,
          Chunk.ref "schemas" "Chunky".toList,
          Chunk.plain "\"".toList] → '/' ∉ n →
        Chunk.rewriteText (.ref k n) = n ++ ".json".toList)) :=
  ⟨by decide, c4_sibling_references _ (by decide) (by decide)⟩

theorem all_filter_of_all {p q : Json → Bool} {l : List Json} (h : l.all p = true) :
    (l.filter q).all p = true := by
  rw [List.all_eq_true] at h ⊢
  exact fun x hx => h x (List.mem_of_mem_filter hx)

theorem partitionParams_obj {ps : List Json} (h : ps.all Json.isObjB = true) :
    partitionParams ps
      = .ok (ps.filter (fun p => (p.lookupD "in").eqStrB "path"),
             ps.filter (fun p => (p.lookupD "in").eqStrB "query")) := by
  induction ps with
  | nil => rfl
  | cons p rest ih =>
    simp only [List.all_cons, Bool.and_eq_true] at h
    obtain ⟨fs, rfl⟩ : ∃ fs, p = Json.obj fs := by
      cases p <;> simp [Json.isObjB] at h ⊢
    unfold partitionParams
    rw [show (Json.obj fs).jsGet "in" = Except.ok ((Json.obj fs).lookupD "in") from rfl]
    show (do
      let (q, pa) ← partitionParams rest
      Except.ok
        ((if ((Json.obj fs).lookupD "in").eqStrB "path" then Json.obj fs :: q else q),
         (if ((Json.obj fs).lookupD "in").eqStrB "query" then Json.obj fs :: pa else pa))) = _
    rw [ih h.2]
    simp only [List.filter_cons]
    rfl

theorem buildParamsAcc_obj_ok {bucket : List Json} (h : bucket.all Json.isObjB = true) :
    ∀ props reqs, ∃ r, buildParamsAcc bucket props reqs = .ok r := by
  induction bucket with
  | nil => exact fun props reqs => ⟨(props, reqs), rfl⟩
  | cons p rest ih =>
    intro props reqs
    simp only [List.all_cons, Bool.and_eq_true] at h
    obtain ⟨fs, rfl⟩ : ∃ fs, p = Json.obj fs := by
      cases p <;> simp [Json.isObjB] at h ⊢
    unfold buildParamsAcc
    dsimp only
    split
    · exact ih h.2 _ _
    · exact ih h.2 _ _

theorem buildSchemaFromParameters_obj_ok {bucket : List Json}
    (h : bucket.all Json.isObjB = true) :
    ∃ gs, buildSchemaFromParameters bucket = .ok (Json.obj gs) := by
  obtain ⟨⟨props, reqs⟩, hr⟩ := buildParamsAcc_obj_ok h [] []
  refine ⟨[("type", .str "object"), ("properties", .obj props), ("required", .arr reqs),
    ("additionalProperties", .bool false)], ?_⟩
  unfold buildSchemaFromParameters
  rw [hr]
  rfl

theorem stringifyAux_obj_some (fs : List (String × Json)) (ind : String) :
    ∃ s, stringifyAux (.obj fs) ind = some s := by
  unfold stringifyAux
  dsimp only
  split
  · exact ⟨_, rfl⟩
  · exact ⟨_, rfl⟩

theorem adaptSchema_obj_out {fs : List (String × Json)} {name : Json} {f : String}
    {out : Json} (h : adaptSchema (.obj fs) name f = .ok out) :
    ∃ gs, out = .obj gs := by
  unfold adaptSchema at h
  dsimp only at h
  split at h
  · simp at h
  · next b heq =>
    injection h with h
    cases b
    · exact ⟨_, h.symm⟩
    · exact ⟨_, h.symm⟩

theorem buildSchema_shape {bucket : List Json} {j : Json}
    (h : buildSchemaFromParameters bucket = .ok j) :
    ∃ props reqs, j = .obj [("type", .str "object"), ("properties", .obj props),
      ("required", .arr reqs), ("additionalProperties", .bool false)] := by
  unfold buildSchemaFromParameters at h
  cases hacc : buildParamsAcc bucket [] [] with
  | error err =>
    rw [hacc] at h
    have h' : (Except.error err : Except Unit Json) = .ok j := h
    cases h'
  | ok pr =>
    obtain ⟨props, reqs⟩ := pr
    rw [hacc] at h
    have h' : (Except.ok (Json.obj [("type", .str "object"), ("properties", .obj props),
        ("required", .arr reqs), ("additionalProperties", .bool false)])
        : Except Unit Json) = .ok j := h
    injection h' with h'
    exact ⟨props, reqs, h'.symm⟩

theorem processParameterSchema_obj_ok (props : List (String × Json)) (reqs : List Json)
    (folder stem : String) :
    ∃ w, processParameterSchema (.obj [("type", .str "object"), ("properties", .obj props),
        ("required", .arr reqs), ("additionalProperties", .bool false)]) folder stem
      = .ok w := by
  obtain ⟨s, hstr⟩ := stringifyAux_obj_some [("type", .str "object"),
    ("properties", .obj props), ("required", .arr reqs),
    ("additionalProperties", .bool false),
    ("title", .undef), ("$id", .str (sanitizeUri stem ++ ".json"))] ""
  refine ⟨⟨folder, stem ++ ".json", s⟩, ?_⟩
  have hred : processParameterSchema (.obj [("type", .str "object"),
        ("properties", .obj props), ("required", .arr reqs),
        ("additionalProperties", .bool false)]) folder stem
      = (match stringifyJson (.obj [("type", .str "object"), ("properties", .obj props),
          ("required", .arr reqs), ("additionalProperties", .bool false),
          ("title", .undef), ("$id", .str (sanitizeUri stem ++ ".json"))]) with
        | some s => Except.ok (⟨folder, stem ++ ".json", s⟩ : Write)
        | none => Except.error ()) := rfl
  rw [hred,
    show stringifyJson (.obj [("type", .str "object"), ("properties", .obj props),
        ("required", .arr reqs), ("additionalProperties", .bool false),
        ("title", .undef), ("$id", .str (sanitizeUri stem ++ ".json"))])
      = stringifyAux (.obj [("type", .str "object"), ("properties", .obj props),
        ("required", .arr reqs), ("additionalProperties", .bool false),
        ("title", .undef), ("$id", .str (sanitizeUri stem ++ ".json"))]) "" from rfl,
    hstr]

theorem runBucket_snd_false {bucket : List Json} (h : bucket.all Json.isObjB = true)
    (folder base key : String) : (runBucket folder base key bucket).2 = false := by
  unfold runBucket
  split
  · obtain ⟨gs, hgs⟩ := buildSchemaFromParameters_obj_ok h
    obtain ⟨props, reqs, hshape⟩ := buildSchema_shape hgs
    rw [hgs, hshape]
    dsimp only
    obtain ⟨w, hw⟩ := processParameterSchema_obj_ok props reqs folder
      (getFilenameS (base ++ "_" ++ key ++ "_" ++ PARAMETERS_KEYWORD))
    rw [hw]
  · rfl

theorem processOption_buckets (folder base : String) {params : List Json}
    (h : params.all Json.isObjB = true)
    {q r : List Json}
    (hq : q = params.filter (fun p => (p.lookupD "in").eqStrB "path"))
    (hr : r = params.filter (fun p => (p.lookupD "in").eqStrB "query")) :
    (match partitionParams params with
      | .error _ => (([] : List Write), true)
      | .ok (q, pa) =>
        let (w1, e1) := runBucket folder base "query" q
        if e1 then (w1, true)
        else
          let (w2, e2) := runBucket folder base "path" pa
          (w1 ++ w2, e2))
      = ((runBucket folder base "query" q).1 ++ (runBucket folder base "path" r).1,
         false) := by
  subst hq hr
  rw [partitionParams_obj h]
  have hqall : (params.filter (fun p => (p.lookupD "in").eqStrB "path")).all
      Json.isObjB = true := all_filter_of_all h
  have hrall : (params.filter (fun p => (p.lookupD "in").eqStrB "query")).all
      Json.isObjB = true := all_filter_of_all h
  have hq2 := runBucket_snd_false hqall folder base "query"
  have hr2 := runBucket_snd_false hrall folder base "path"
  cases hqb : runBucket folder base "query"
      (params.filter (fun p => (p.lookupD "in").eqStrB "path")) with
  | mk w1 e1 =>
    cases hrb : runBucket folder base "path"
        (params.filter (fun p => (p.lookupD "in").eqStrB "query")) with
    | mk w2 e2 =>
      have he1 : e1 = false := by rw [hqb] at hq2; exact hq2
      have he2 : e2 = false := by rw [hrb] at hr2; exact hr2
      subst he1
      subst he2
      simp [hqb, hrb]

theorem processOptions_cons (pf base k : String) (v : Json)
    (rest : List (String × Json)) :
    processOptions pf base ((k, v) :: rest)
      = (match processOption pf base k v with
         | (ws, er) =>
           if er then (ws, true)
           else match processOptions pf base rest with
           | (ws2, e2) => (ws ++ ws2, e2)) := rfl

theorem processPathEntries_cons (e : String) (opts : Json)
    (rest : List (String × Json)) :
    processPathEntries ((e, opts) :: rest)
      = (match processEndpoint e opts with
         | (ws, er) =>
           if er then (ws, true)
           else match processPathEntries rest with
           | (ws2, e2) => (ws ++ ws2, e2)) := rfl

theorem processEndpoint_obj (e : String) (fields : List (String × Json)) :
    processEndpoint e (.obj fields)
      = processOptions (sanitizeUri e) (underscorePath (sanitizeUri e)) fields := rfl

theorem processOption_pathLevel (pf base : String) {psPath : List Json}
    (h : psPath.all Json.isObjB = true) :
    processOption pf base "parameters" (.arr psPath)
      = ((runBucket pf base "query"
            (psPath.filter (fun p => (p.lookupD "in").eqStrB "path"))).1
          ++ (runBucket pf base "path"
            (psPath.filter (fun p => (p.lookupD "in").eqStrB "query"))).1,
         false) := by
  show (match partitionParams psPath with
    | .error _ => (([] : List Write), true)
    | .ok (q, pa) =>
      let (w1, e1) := runBucket pf base "query" q
      if e1 then (w1, true)
      else
        let (w2, e2) := runBucket pf base "path" pa
        (w1 ++ w2, e2)) = _
  exact processOption_buckets pf base h rfl rfl

theorem processOption_methodLevel (pf base m : String) {ps : List Json}
    (hm : METHODS.contains m = true) (h : ps.all Json.isObjB = true) :
    processOption pf base m (.obj [("parameters", Json.arr ps)])
      = ((runBucket (pathJoin pf m) base "query"
            (ps.filter (fun p => (p.lookupD "in").eqStrB "path"))).1
          ++ (runBucket (pathJoin pf m) base "path"
            (ps.filter (fun p => (p.lookupD "in").eqStrB "query"))).1,
         false) := by
  unfold processOption
  rw [if_pos hm]
  rw [show (Json.obj [("parameters", Json.arr ps)]).hasKeyE PARAMETERS_KEYWORD
    = Except.ok true from rfl]
  show (match partitionParams ps with
    | .error _ => (([] : List Write), true)
    | .ok (q, pa) =>
      let (w1, e1) := runBucket (pathJoin pf m) base "query" q
      if e1 then (w1, true)
      else
        let (w2, e2) := runBucket (pathJoin pf m) base "path" pa
        (w1 ++ w2, e2)) = _
  exact processOption_buckets (pathJoin pf m) base h rfl rfl

/-- Claim C2 (confirmed): for every path entry, for both the path-level and
the operation-level `parameters` lists, the extractor routes parameters
with `in: "path"` into the bucket emitted under the `_query_parameters`
filename suffix (the `"query"` bucket of `runBucket`) and parameters with
`in: "query"` into the bucket emitted under the `_path_parameters` suffix —
the inversion the spec documents.  Non-empty buckets yield exactly one file
each; see the witness for the `/widgets/\x7bid\x7d` example with its two
files, `id` under `_query_parameters` with required `["id"]` and `verbose`
under `_path_parameters`. -/
theorem c2_parameter_routing (e m : String) (psPath ps : List Json)
    (hm : METHODS.contains m = true)
    (hpsPath : psPath.all Json.isObjB = true)
    (hps : ps.all Json.isObjB = true) :
    processPathSchemas (Json.obj [("paths", Json.obj [(e, Json.obj
        [("parameters", Json.arr psPath),
         (m, Json.obj [("parameters", Json.arr ps)])])])])
      = ((runBucket (sanitizeUri e) (underscorePath (sanitizeUri e)) "query"
            (psPath.filter (fun p => (p.lookupD "in").eqStrB "path"))).1
        ++ (runBucket (sanitizeUri e) (underscorePath (sanitizeUri e)) "path"
            (psPath.filter (fun p => (p.lookupD "in").eqStrB "query"))).1
        ++ (runBucket (pathJoin (sanitizeUri e) m) (underscorePath (sanitizeUri e)) "query"
            (ps.filter (fun p => (p.lookupD "in").eqStrB "path"))).1
        ++ (runBucket (pathJoin (sanitizeUri e) m) (underscorePath (sanitizeUri e)) "path"
            (ps.filter (fun p => (p.lookupD "in").eqStrB "query"))).1,
        false) := by
  have h1 := processOption_pathLevel (sanitizeUri e) (underscorePath (sanitizeUri e)) hpsPath
  have h2 := processOption_methodLevel (sanitizeUri e) (underscorePath (sanitizeUri e))
    m hm hps
  rw [show processPathSchemas (Json.obj [("paths", Json.obj [(e, Json.obj
      [("parameters", Json.arr psPath),
       (m, Json.obj [("parameters", Json.arr ps)])])])])
    = processPathEntries [(e, Json.obj
      [("parameters", Json.arr psPath),
       (m, Json.obj [("parameters", Json.arr ps)])])] from rfl]
  rw [processPathEntries_cons, processEndpoint_obj, processOptions_cons, h1]
  dsimp only
  rw [processOptions_cons, h2]
  dsimp only
  simp [show processOptions (sanitizeUri e) (underscorePath (sanitizeUri e)) [] = ([], false)
    from rfl,
    show processPathEntries [] = ([], false) from rfl]

/-- Claim C2, witness: the routing theorem applied to the `/widgets/(id)`
example, plus the concrete checks that exactly two files are produced, the
`_query_parameters` one holding `id` with required `["id"]` and the
`_path_parameters` one holding `verbose`. -/
theorem c2_witness :
    METHODS.contains "get" = true ∧
    processPathSchemas (Json.obj [("paths", Json.obj [("/widgets/\x7bid\x7d", Json.obj
        [("parameters", Json.arr []),
         ("get", Json.obj [("parameters", Json.arr
           [Json.obj [("name", Json.str "id"), ("in", Json.str "path"),
              ("required", Json.bool true),
              ("schema", Json.obj [("type", Json.str "string")])],
            Json.obj [("name", Json.str "verbose"), ("in", Json.str "query"),
              ("schema", Json.obj [("type", Json.str "boolean")])]])])])])])
      = ((runBucket (sanitizeUri "/widgets/\x7bid\x7d")
            (underscorePath (sanitizeUri "/widgets/\x7bid\x7d")) "query"
            (([] : List Json).filter (fun p => (p.lookupD "in").eqStrB "path"))).1
        ++ (runBucket (sanitizeUri "/widgets/\x7bid\x7d")
            (underscorePath (sanitizeUri "/widgets/\x7bid\x7d")) "path"
            (([] : List Json).filter (fun p => (p.lookupD "in").eqStrB "query"))).1
        ++ (runBucket (pathJoin (sanitizeUri "/widgets/\x7bid\x7d") "get")
            (underscorePath (sanitizeUri "/widgets/\x7bid\x7d")) "query"
            (([Json.obj [("name", Json.str "id"), ("in", Json.str "path"),
                ("required", Json.bool true),
                ("schema", Json.obj [("type", Json.str "string")])],
              Json.obj [("name", Json.str "verbose"), ("in", Json.str "query"),
                ("schema", Json.obj [("type", Json.str "boolean")])]]).filter
              (fun p => (p.lookupD "in").eqStrB "path"))).1
        ++ (runBucket (pathJoin (sanitizeUri "/widgets/\x7bid\x7d") "get")
            (underscorePath (sanitizeUri "/widgets/\x7bid\x7d")) "path"
            (([Json.obj [("name", Json.str "id"), ("in", Json.str "path"),
                ("required", Json.bool true),
                ("schema", Json.obj [("type", Json.str "string")])],
              Json.obj [("name", Json.str "verbose"), ("in", Json.str "query"),
                ("schema", Json.obj [("type", Json.str "boolean")])]]).filter
              (fun p => (p.lookupD "in").eqStrB "query"))).1,
        false) ∧
    ((processPathSchemas (Json.obj [("paths", Json.obj [("/widgets/\x7bid\x7d", Json.obj
        [("parameters", Json.arr []),
         ("get", Json.obj [("parameters", Json.arr
           [Json.obj [("name", Json.str "id"), ("in", Json.str "path"),
              ("required", Json.bool true),
              ("schema", Json.obj [("type", Json.str "string")])],
            Json.obj [("name", Json.str "verbose"), ("in", Json.str "query"),
              ("schema", Json.obj [("type", Json.str "boolean")])]])])])])])).1.map
      (fun w => w.file))
      = ["_widgets_id_query_parameters.json", "_widgets_id_path_parameters.json"] ∧
    ((processPathSchemas (Json.obj [("paths", Json.obj [("/widgets/\x7bid\x7d", Json.obj
        [("parameters", Json.arr []),
         ("get", Json.obj [("parameters", Json.arr
           [Json.obj [("name", Json.str "id"), ("in", Json.str "path"),
              ("required", Json.bool true),
              ("schema", Json.obj [("type", Json.str "string")])],
            Json.obj [("name", Json.str "verbose"), ("in", Json.str "query"),
              ("schema", Json.obj [("type", Json.str "boolean")])]])])])])])).1.map
      (fun w => containsSub "\"id\": \x7b".toList w.content.toList))
      = [true, false] ∧
    ((processPathSchemas (Json.obj [("paths", Json.obj [("/widgets/\x7bid\x7d", Json.obj
        [("parameters", Json.arr []),
         ("get", Json.obj [("parameters", Json.arr
           [Json.obj [("name", Json.str "id"), ("in", Json.str "path"),
              ("required", Json.bool true),
              ("schema", Json.obj [("type", Json.str "string")])],
            Json.obj [("name", Json.str "verbose"), ("in", Json.str "query"),
              ("schema", Json.obj [("type", Json.str "boolean")])]])])])])])).1.map
      (fun w => containsSub "\"required\": [\n    \"id\"\n  ]".toList w.content.toList))
      = [true, false] ∧
    ((processPathSchemas (Json.obj [("paths", Json.obj [("/widgets/\x7bid\x7d", Json.obj
        [("parameters", Json.arr []),
         ("get", Json.obj [("parameters", Json.arr
           [Json.obj [("name", Json.str "id"), ("in", Json.str "path"),
              ("required", Json.bool true),
              ("schema", Json.obj [("type", Json.str "string")])],
            Json.obj [("name", Json.str "verbose"), ("in", Json.str "query"),
              ("schema", Json.obj [("type", Json.str "boolean")])]])])])])])).1.map
      (fun w => containsSub "\"verbose\": \x7b".toList w.content.toList))
      = [false, true] :=
  ⟨by decide,
   c2_parameter_routing "/widgets/\x7bid\x7d" "get" []
     [Json.obj [("name", Json.str "id"), ("in", Json.str "path"),
        ("required", Json.bool true),
        ("schema", Json.obj [("type", Json.str "string")])],
      Json.obj [("name", Json.str "verbose"), ("in", Json.str "query"),
        ("schema", Json.obj [("type", Json.str "boolean")])]]
     (by decide) (by decide) (by decide),
   by decide, by decide, by decide⟩

theorem mem_writtenKeys_of_lookup {fs : List (String × Json)} {k : String} {v : Json}
    (h : (Json.obj fs).lookup k = some v) (hv : v.isUndef = false) :
    k ∈ writtenKeys (.obj fs) := by
  simp only [Json.lookup] at h
  cases hfind : fs.find? (fun kv => kv.1 = k) with
  | none => rw [hfind] at h; cases h
  | some kv =>
    rw [hfind] at h
    obtain ⟨k0, v0⟩ := kv
    have hp := List.find?_some hfind
    have hmem := List.mem_of_find?_eq_some hfind
    simp only [decide_eq_true_eq] at hp
    subst hp
    simp only [Option.map_some', Option.some.injEq] at h
    subst h
    unfold writtenKeys
    exact List.mem_map_of_mem _ (List.mem_filter.mpr ⟨hmem, by simpa using hv⟩)

theorem adaptSchema_built (props : List (String × Json)) (reqs : List Json)
    (stem : String) :
    adaptSchema (.obj [("type", .str "object"), ("properties", .obj props),
        ("required", .arr reqs), ("additionalProperties", .bool false)])
      Json.undef stem
      = .ok (.obj [("type", .str "object"), ("properties", .obj props),
          ("required", .arr reqs), ("additionalProperties", .bool false),
          ("title", .undef), ("$id", .str (sanitizeUri stem ++ ".json"))]) := rfl

theorem processParameterSchema_built {props : List (String × Json)} {reqs : List Json}
    {folder stem : String} {w : Write}
    (h : processParameterSchema (.obj [("type", .str "object"), ("properties", .obj props),
        ("required", .arr reqs), ("additionalProperties", .bool false)]) folder stem
      = .ok w) : GoodParamWrite w := by
  obtain ⟨s, hs⟩ := stringifyAux_obj_some [("type", .str "object"), ("properties", .obj props),
    ("required", .arr reqs), ("additionalProperties", .bool false),
    ("title", .undef), ("$id", .str (sanitizeUri stem ++ ".json"))] ""
  have hs' : stringifyJson (.obj [("type", .str "object"), ("properties", .obj props),
      ("required", .arr reqs), ("additionalProperties", .bool false),
      ("title", .undef), ("$id", .str (sanitizeUri stem ++ ".json"))]) = some s := hs
  have hred : processParameterSchema (.obj [("type", .str "object"),
        ("properties", .obj props), ("required", .arr reqs),
        ("additionalProperties", .bool false)]) folder stem
      = (match stringifyJson (.obj [("type", .str "object"), ("properties", .obj props),
          ("required", .arr reqs), ("additionalProperties", .bool false),
          ("title", .undef), ("$id", .str (sanitizeUri stem ++ ".json"))]) with
        | some s => Except.ok (⟨folder, stem ++ ".json", s⟩ : Write)
        | none => Except.error ()) := rfl
  rw [hred, hs'] at h
  injection h with h
  refine ⟨.obj [("type", .str "object"), ("properties", .obj props),
    ("required", .arr reqs), ("additionalProperties", .bool false),
    ("title", .undef), ("$id", .str (sanitizeUri stem ++ ".json"))], s, hs', ?_, ?_, ?_⟩
  · rw [← h]
  · rw [show writtenKeys (.obj [("type", Json.str "object"), ("properties", Json.obj props),
      ("required", Json.arr reqs), ("additionalProperties", Json.bool false),
      ("title", Json.undef), ("$id", Json.str (sanitizeUri stem ++ ".json"))])
      = ["type", "properties", "required", "additionalProperties", "$id"] from rfl]
    decide
  · rw [show writtenKeys (.obj [("type", Json.str "object"), ("properties", Json.obj props),
      ("required", Json.arr reqs), ("additionalProperties", Json.bool false),
      ("title", Json.undef), ("$id", Json.str (sanitizeUri stem ++ ".json"))])
      = ["type", "properties", "required", "additionalProperties", "$id"] from rfl]
    decide

theorem runBucket_writes (folder base key : String) (bucket : List Json) :
    ∀ w ∈ (runBucket folder base key bucket).1, GoodParamWrite w := by
  intro w hw
  unfold runBucket at hw
  split at hw
  · cases hb : buildSchemaFromParameters bucket with
    | error err => rw [hb] at hw; simp at hw
    | ok j =>
      rw [hb] at hw
      obtain ⟨props, reqs, rfl⟩ := buildSchema_shape hb
      dsimp only at hw
      cases hp : processParameterSchema (.obj [("type", .str "object"),
          ("properties", .obj props), ("required", .arr reqs),
          ("additionalProperties", .bool false)]) folder
          (getFilenameS (base ++ "_" ++ key ++ "_" ++ PARAMETERS_KEYWORD)) with
      | error err => rw [hp] at hw; simp at hw
      | ok w' =>
        rw [hp] at hw
        have hww : w = w' := by simpa using hw
        subst hww
        exact processParameterSchema_built hp
  · simp at hw

theorem processOption_writes (pf base k : String) (v : Json) :
    ∀ w ∈ (processOption pf base k v).1, GoodParamWrite w := by
  intro w hw
  unfold processOption at hw
  dsimp only at hw
  repeat' split at hw
  all_goals first
    | exact runBucket_writes _ _ _ _ w hw
    | (rcases List.mem_append.mp hw with hmem | hmem
       · exact runBucket_writes _ _ _ _ w hmem
       · exact runBucket_writes _ _ _ _ w hmem)
    | simp at hw

theorem processOptions_writes (pf base : String) (opts : List (String × Json)) :
    ∀ w ∈ (processOptions pf base opts).1, GoodParamWrite w := by
  induction opts with
  | nil => intro w hw; simp [processOptions] at hw
  | cons kv rest ih =>
    obtain ⟨k, v⟩ := kv
    intro w hw
    rw [processOptions_cons] at hw
    split at hw
    next ws er h1 =>
    split at hw
    · exact processOption_writes pf base k v w (by rw [h1]; exact hw)
    · split at hw
      next ws2 e2 h2 =>
      rcases List.mem_append.mp hw with hmem | hmem
      · exact processOption_writes pf base k v w (by rw [h1]; exact hmem)
      · exact ih w (by rw [h2]; exact hmem)

theorem processEndpoint_writes (e : String) (opts : Json) :
    ∀ w ∈ (processEndpoint e opts).1, GoodParamWrite w := by
  intro w hw
  unfold processEndpoint at hw
  split at hw
  · simp at hw
  · exact processOptions_writes _ _ _ w hw

theorem processPathEntries_writes (entries : List (String × Json)) :
    ∀ w ∈ (processPathEntries entries).1, GoodParamWrite w := by
  induction entries with
  | nil => intro w hw; simp [processPathEntries] at hw
  | cons kv rest ih =>
    obtain ⟨e, opts⟩ := kv
    intro w hw
    rw [processPathEntries_cons] at hw
    split at hw
    next ws er h1 =>
    split at hw
    · exact processEndpoint_writes e opts w (by rw [h1]; exact hw)
    · split at hw
      next ws2 e2 h2 =>
      rcases List.mem_append.mp hw with hmem | hmem
      · exact processEndpoint_writes e opts w (by rw [h1]; exact hmem)
      · exact ih w (by rw [h2]; exact hmem)

theorem processPathSchemas_writes (g : Json) :
    ∀ w ∈ (processPathSchemas g).1, GoodParamWrite w := by
  intro w hw
  unfold processPathSchemas at hw
  split at hw
  · simp at hw
  · exact processPathEntries_writes _ w hw

theorem processEntry_write {isArr : Bool} {kw key : String} {gs : List (String × Json)}
    {w : Write}
    (h : processEntry isArr kw key (.obj gs) = .ok (some w)) :
    GoodComponentWrite w := by
  have hred : processEntry isArr kw key (.obj gs)
      = (match getFilename (if isArr then (Json.obj gs).lookupD "name" else .str key) with
        | none => Except.ok none
        | some filename =>
          (adaptSchema (.obj gs)
              (if isArr then (Json.obj gs).lookupD "name" else .str key) filename).bind
            (fun adapted =>
              match stringifyJson adapted with
              | some s => .ok (some ⟨kw, filename ++ ".json", rewriteRefsStr s⟩)
              | none => .error ())) := by
    cases isArr <;> rfl
  rw [hred] at h
  cases hf : getFilename (if isArr then (Json.obj gs).lookupD "name" else .str key) with
  | none => rw [hf] at h; simp at h
  | some filename =>
    rw [hf] at h
    obtain ⟨n, hn⟩ : ∃ n, (if isArr then (Json.obj gs).lookupD "name" else Json.str key)
        = Json.str n := by
      rcases hnm : (if isArr then (Json.obj gs).lookupD "name" else Json.str key) with
        _ | _ | b | m | s | xs | fs
      · rw [hnm] at hf; simp [getFilename] at hf
      · rw [hnm] at hf; simp [getFilename] at hf
      · rw [hnm] at hf; simp [getFilename] at hf
      · rw [hnm] at hf; simp [getFilename] at hf
      · exact ⟨s, rfl⟩
      · rw [hnm] at hf; simp [getFilename] at hf
      · rw [hnm] at hf; simp [getFilename] at hf
    rw [hn] at h
    dsimp only at h
    cases hout : adaptSchema (.obj gs) (.str n) filename with
    | error e =>
      rw [hout] at h
      have h' : (Except.error e : Except Unit (Option Write)) = .ok (some w) := h
      cases h'
    | ok out =>
    rw [hout] at h
    obtain ⟨gs2, rfl⟩ := adaptSchema_obj_out hout
    obtain ⟨hsch, htitle, hid, hts1, hts2, hframe⟩ := adaptSchema_spec hout
    obtain ⟨s, hs⟩ := stringifyAux_obj_some gs2 ""
    have hs' : stringifyJson (.obj gs2) = some s := hs
    have h2 : (match stringifyJson (.obj gs2) with
        | some s => Except.ok (some (⟨kw, filename ++ ".json", rewriteRefsStr s⟩ : Write))
        | none => Except.error ()) = Except.ok (some w) := h
    rw [hs'] at h2
    injection h2 with h2
    injection h2 with h2
    refine ⟨.obj gs2, s, hs', ?_, ?_, ?_⟩
    · rw [← h2]
    · exact mem_writtenKeys_of_lookup htitle rfl
    · exact mem_writtenKeys_of_lookup hid rfl

theorem processEntries_writes (isArr : Bool) (kw : String) :
    ∀ es : List (String × Json), (∀ p ∈ es, ∃ gs, p.2 = Json.obj gs) →
      ∀ w ∈ (processEntries isArr kw es).1, GoodComponentWrite w := by
  intro es
  induction es with
  | nil => intro _ w hw; simp [processEntries] at hw
  | cons kv rest ih =>
    obtain ⟨key, v⟩ := kv
    intro hobj w hw
    obtain ⟨gs, hgs⟩ : ∃ gs, v = Json.obj gs := by
      simpa using hobj (key, v) (List.mem_cons_self _ _)
    subst hgs
    rw [processEntries_cons] at hw
    have hrest : ∀ p ∈ rest, ∃ gs, p.2 = Json.obj gs :=
      fun p hp => hobj p (List.mem_cons_of_mem _ hp)
    split at hw
    · simp at hw
    · exact ih hrest w hw
    · next w0 hpe =>
      rcases List.mem_cons.mp hw with hww | hmem
      · subst hww; exact processEntry_write hpe
      · exact ih hrest w hmem

theorem processSchema_writes (schema : Json) (kw : String) (isArr : Bool)
    (es : List (String × Json)) (hes : schema.entriesOf = .ok es)
    (hobj : ∀ p ∈ es, ∃ gs, p.2 = Json.obj gs) :
    ∀ w ∈ (processSchema schema kw isArr).1, GoodComponentWrite w := by
  intro w hw
  unfold processSchema at hw
  rw [hes] at hw
  exact processEntries_writes isArr kw es hobj w hw

/-- C1, as stated, is false: synthetic parameter schemas are serialized
without a `title` key.  `buildSchemaFromParameters` never writes a `name`
field, so `processParameterSchema` reads `schema.name` as `undefined`,
`adaptSchema` assigns `title = undefined`, and `JSON.stringify` drops the
key.  On this document the pipeline emits exactly one file and its payload
does not even contain `title` as a substring. -/
theorem c1_counterexample :
    ((processPathSchemas (Json.obj [("paths", Json.obj [("/w", Json.obj [("get",
        Json.obj [("parameters", Json.arr [Json.obj [("name", Json.str "id"),
          ("in", Json.str "query"),
          ("schema", Json.obj [("type", Json.str "string")])]])])])])])).1.map
      (fun w => containsSub "title".toList w.content.toList)) = [false] := by decide

/-- C1 (amended): every component-schema file written by `processSchema`
(whose entries are the object-valued schemas the converter produces)
serializes a JSON value whose surviving top-level keys include both `title`
and `$id`, and every synthetic parameter file written by
`processPathSchemas` serializes a JSON value whose surviving top-level keys
include `$id` but never `title`. -/
theorem c1_title_id_keys :
    (∀ (schema : Json) (kw : String) (isArr : Bool) (es : List (String × Json)),
      schema.entriesOf = .ok es → (∀ p ∈ es, ∃ gs, p.2 = Json.obj gs) →
      ∀ w ∈ (processSchema schema kw isArr).1, GoodComponentWrite w) ∧
    (∀ g : Json, ∀ w ∈ (processPathSchemas g).1, GoodParamWrite w) :=
  ⟨processSchema_writes, processPathSchemas_writes⟩

/-- C1 witness: both parts of the amended claim applied to concrete runs —
the component file for schema `Foo` (which carries `title` and `$id`) and
the synthetic parameter file for `/w` (which carries `$id` and no
`title`). -/
theorem c1_witness :
    GoodComponentWrite ⟨"components.schemas", "Foo.json",
      "\x7b\n  \"type\": \"string\",\n  \"title\": \"Foo\",\n  \"$id\": \"Foo.json\"\n\x7d"⟩ ∧
    GoodParamWrite ⟨"/w/get", "_w_path_parameters.json",
      "\x7b\n  \"type\": \"object\",\n  \"properties\": \x7b\n    \"id\": \x7b\n      \"schema\": \x7b\n        \"type\": \"string\"\n      \x7d\n    \x7d\n  \x7d,\n  \"required\": [],\n  \"additionalProperties\": false,\n  \"$id\": \"_w_path_parameters.json\"\n\x7d"⟩ :=
  ⟨c1_title_id_keys.1 (Json.obj [("Foo", Json.obj [("type", Json.str "string")])])
      "components.schemas" false [("Foo", Json.obj [("type", Json.str "string")])] rfl
      (by intro p hp; rw [List.mem_singleton] at hp; subst hp; exact ⟨_, rfl⟩)
      _ (by decide),
   c1_title_id_keys.2 (Json.obj [("paths", Json.obj [("/w", Json.obj [("get",
      Json.obj [("parameters", Json.arr [Json.obj [("name", Json.str "id"),
        ("in", Json.str "query"),
        ("schema", Json.obj [("type", Json.str "string")])]])])])])]) _ (by decide)⟩

end Oas2Json
